import Mathlib

/-!
Verification of the Demivio PPN reverse-calculator engine.

Shallow embedding of the Demivio sources: the formula evaluator
(`calculator.ts`), the most evolved simulation engine (the `runSimulation`
variant with seen-set deduplication, priority ordering and early
termination), the web-worker message handler (`simulator.worker.ts`) and
the coordinator merge step (`handleSimulate` in the route component).

All Decimal.js values are modelled as exact rationals; every arithmetic
operation of Decimal.js (configured with `precision: 20` and
`rounding: ROUND_HALF_UP`, i.e. ties away from zero) rounds its result to
20 significant decimal digits, which is modelled explicitly by `roundSig`.
-/

namespace Demivio

/-- Round a positive rational to 20 significant decimal digits, ties away
from zero.  `Int.log 10 x` is the decimal magnitude exponent of `x`, so
`10 ^ (Int.log 10 x - 19)` is one unit in the 20th significant digit. -/
def roundSigPos (x : ℚ) : ℚ :=
  (⌊x / (10 : ℚ) ^ (Int.log 10 x - 19) + 1 / 2⌋ : ℤ) * (10 : ℚ) ^ (Int.log 10 x - 19)

/-- Rounding to 20 significant decimal digits of an arbitrary rational,
ties away from zero (decimal.js `ROUND_HALF_UP` at `precision: 20`). -/
def roundSig (x : ℚ) : ℚ :=
  if 0 < x then roundSigPos x else if x < 0 then -roundSigPos (-x) else 0

theorem intLog10_eq {x : ℚ} (L : ℤ) (h1 : (10 : ℚ) ^ L ≤ x) (h2 : x < (10 : ℚ) ^ (L + 1)) :
    Int.log 10 x = L := by
  have hx : 0 < x := lt_of_lt_of_le (by positivity) h1
  have hb : 1 < (10 : ℕ) := by norm_num
  have h1' : ((10 : ℕ) : ℚ) ^ L ≤ x := by exact_mod_cast h1
  have h2' : x < ((10 : ℕ) : ℚ) ^ (L + 1) := by exact_mod_cast h2
  have hle : L ≤ Int.log 10 x := (Int.zpow_le_iff_le_log hb hx).mp h1'
  have hlt : Int.log 10 x < L + 1 := (Int.lt_zpow_iff_log_lt hb hx).mp h2'
  omega

theorem zpow10_pos (e : ℤ) : (0 : ℚ) < 10 ^ e := by positivity

theorem roundSigPos_eval (L k : ℤ) {x : ℚ} (h1 : (10 : ℚ) ^ L ≤ x)
    (h2 : x < (10 : ℚ) ^ (L + 1))
    (h3 : (k : ℚ) ≤ x * 10 ^ (19 - L) + 1 / 2)
    (h4 : x * 10 ^ (19 - L) + 1 / 2 < k + 1) :
    roundSigPos x = (k : ℚ) * 10 ^ (L - 19) := by
  unfold roundSigPos
  rw [intLog10_eq L h1 h2]
  have hdiv : x / (10 : ℚ) ^ (L - 19) = x * 10 ^ (19 - L) := by
    rw [div_eq_mul_inv, ← zpow_neg, neg_sub]
  rw [hdiv, Int.floor_eq_iff.mpr ⟨h3, by exact_mod_cast h4⟩]

theorem roundSig_eval (L k : ℤ) {x : ℚ} (h1 : (10 : ℚ) ^ L ≤ x)
    (h2 : x < (10 : ℚ) ^ (L + 1))
    (h3 : (k : ℚ) ≤ x * 10 ^ (19 - L) + 1 / 2)
    (h4 : x * 10 ^ (19 - L) + 1 / 2 < k + 1) :
    roundSig x = (k : ℚ) * 10 ^ (L - 19) := by
  have hx : 0 < x := lt_of_lt_of_le (zpow10_pos L) h1
  rw [roundSig, if_pos hx, roundSigPos_eval L k h1 h2 h3 h4]

theorem roundSigPos_eq_self (m e : ℤ) (hm0 : 0 < m) (hm : m < 10 ^ 20) :
    roundSigPos ((m : ℚ) * 10 ^ e) = (m : ℚ) * 10 ^ e := by
  set x : ℚ := (m : ℚ) * 10 ^ e with hxdef
  have hx : 0 < x := by
    have : (0 : ℚ) < (m : ℚ) := by exact_mod_cast hm0
    positivity
  set L : ℤ := Int.log 10 x with hL
  have hb : 1 < (10 : ℕ) := by norm_num
  have hLlt : L < e + 20 := by
    have hxlt : x < ((10 : ℕ) : ℚ) ^ (e + 20) := by
      have : (m : ℚ) < 10 ^ (20 : ℕ) := by exact_mod_cast hm
      have h10 : ((10 : ℕ) : ℚ) ^ (e + 20) = 10 ^ e * 10 ^ (20 : ℕ) := by
        push_cast
        rw [zpow_add₀ (by norm_num : (10 : ℚ) ≠ 0)]
        norm_num [mul_comm]
      rw [h10, hxdef]
      have he : (0 : ℚ) < 10 ^ e := zpow10_pos e
      calc (m : ℚ) * 10 ^ e < 10 ^ (20 : ℕ) * 10 ^ e := by
            exact mul_lt_mul_of_pos_right this he
        _ = 10 ^ e * 10 ^ (20 : ℕ) := by ring
    exact (Int.lt_zpow_iff_log_lt hb hx).mp hxlt
  -- the scaled value is an integer
  have hk : (0 : ℤ) ≤ e + 19 - L := by omega
  set k : ℕ := (e + 19 - L).toNat with hkdef
  have hkz : (e + 19 - L) = (k : ℤ) := by omega
  have hscale : x * (10 : ℚ) ^ (19 - L) = ((m * 10 ^ k : ℤ) : ℚ) := by
    rw [hxdef]
    have : (10 : ℚ) ^ e * (10 : ℚ) ^ (19 - L) = (10 : ℚ) ^ ((k : ℤ)) := by
      rw [← zpow_add₀ (by norm_num : (10 : ℚ) ≠ 0), ← hkz]
      ring_nf
    push_cast
    rw [mul_assoc, this, zpow_natCast]
  have hfloor : ⌊x / (10 : ℚ) ^ (L - 19) + 1 / 2⌋ = m * 10 ^ k := by
    have hdiv : x / (10 : ℚ) ^ (L - 19) = x * 10 ^ (19 - L) := by
      rw [div_eq_mul_inv, ← zpow_neg, neg_sub]
    rw [hdiv, hscale]
    rw [Int.floor_eq_iff]
    constructor
    · push_cast; linarith
    · push_cast; linarith
  unfold roundSigPos
  rw [← hL, hfloor]
  have hback : ((m * 10 ^ k : ℤ) : ℚ) * (10 : ℚ) ^ (L - 19) = (m : ℚ) * 10 ^ e := by
    push_cast
    rw [mul_assoc, ← zpow_natCast (10 : ℚ) k, ← zpow_add₀ (by norm_num : (10 : ℚ) ≠ 0)]
    congr 2
    omega
  rw [hback, ← hxdef]

theorem roundSig_eq_self (m e : ℤ) (hm : |m| < 10 ^ 20) :
    roundSig ((m : ℚ) * 10 ^ e) = (m : ℚ) * 10 ^ e := by
  rcases lt_trichotomy m 0 with hneg | hzero | hpos
  · have hx : ((m : ℚ) * 10 ^ e) < 0 := by
      have : (m : ℚ) < 0 := by exact_mod_cast hneg
      have he := zpow10_pos e
      exact mul_neg_of_neg_of_pos this he
    rw [roundSig, if_neg (by linarith), if_pos hx]
    have : -((m : ℚ) * 10 ^ e) = ((-m : ℤ) : ℚ) * 10 ^ e := by push_cast; ring
    rw [this, roundSigPos_eq_self (-m) e (by omega) (by
      have := abs_lt.mp hm; omega)]
    push_cast; ring
  · subst hzero; simp [roundSig]
  · have hx : 0 < ((m : ℚ) * 10 ^ e) := by
      have : (0 : ℚ) < (m : ℚ) := by exact_mod_cast hpos
      have he := zpow10_pos e
      positivity
    rw [roundSig, if_pos hx]
    exact roundSigPos_eq_self m e hpos (by have := abs_lt.mp hm; omega)

theorem roundSig_intCast (n : ℤ) (h : |n| < 10 ^ 20) : roundSig (n : ℚ) = n := by
  have := roundSig_eq_self n 0 h
  simpa using this

theorem roundSig_zero : roundSig 0 = 0 := by simp [roundSig]

/-- Rounding a value that sits within half an ulp of a 20-digit grid point
returns that grid point (used for the `× 12%` second rounding stage). -/
theorem roundSigPos_near (n E : ℤ) {δ : ℚ} (hn1 : 10 ^ 19 < n) (hn2 : n < 10 ^ 20)
    (hδ : |δ| < (10 : ℚ) ^ E / 2) :
    roundSigPos ((n : ℚ) * 10 ^ E + δ) = (n : ℚ) * 10 ^ E := by
  have hE := zpow10_pos E
  have habs := abs_lt.mp hδ
  have hn1' : (10 : ℚ) ^ (19 : ℕ) + 1 ≤ (n : ℚ) := by
    have : (10 : ℤ) ^ 20 ≤ 10 ^ 20 := le_refl _
    have hn1'' : 10 ^ 19 + 1 ≤ n := by omega
    exact_mod_cast hn1''
  have hn2' : (n : ℚ) ≤ 10 ^ (20 : ℕ) - 1 := by
    have hn2'' : n ≤ 10 ^ 20 - 1 := by omega
    exact_mod_cast hn2''
  have h1 : (10 : ℚ) ^ (E + 19) ≤ (n : ℚ) * 10 ^ E + δ := by
    have hsplit : (10 : ℚ) ^ (E + 19) = 10 ^ (19 : ℕ) * 10 ^ E := by
      rw [← zpow_natCast (10 : ℚ) 19, ← zpow_add₀ (by norm_num : (10 : ℚ) ≠ 0)]
      congr 1; omega
    rw [hsplit]
    nlinarith
  have h2 : (n : ℚ) * 10 ^ E + δ < (10 : ℚ) ^ (E + 19 + 1) := by
    have hsplit : (10 : ℚ) ^ (E + 19 + 1) = 10 ^ (20 : ℕ) * 10 ^ E := by
      rw [← zpow_natCast (10 : ℚ) 20, ← zpow_add₀ (by norm_num : (10 : ℚ) ≠ 0)]
      congr 1; omega
    rw [hsplit]
    nlinarith
  have hsc : ((n : ℚ) * 10 ^ E + δ) * 10 ^ (19 - (E + 19)) = (n : ℚ) + δ * 10 ^ (-E) := by
    have hexp : (19 : ℤ) - (E + 19) = -E := by omega
    rw [hexp, add_mul, mul_assoc, ← zpow_add₀ (by norm_num : (10 : ℚ) ≠ 0)]
    simp
  have hsmall : |δ * 10 ^ (-E)| < 1 / 2 := by
    rw [abs_mul, abs_of_pos (zpow10_pos (-E))]
    calc |δ| * 10 ^ (-E) < ((10 : ℚ) ^ E / 2) * 10 ^ (-E) :=
          mul_lt_mul_of_pos_right hδ (zpow10_pos (-E))
      _ = 1 / 2 := by
          rw [div_mul_eq_mul_div, ← zpow_add₀ (by norm_num : (10 : ℚ) ≠ 0)]
          norm_num
  have hsmall' := abs_lt.mp hsmall
  have heval := roundSigPos_eval (E + 19) n h1 h2
    (by rw [hsc]; linarith) (by rw [hsc]; linarith)
  rw [heval]
  have hexp : E + 19 - 19 = E := by omega
  rw [hexp]

theorem intLog10_mul_zpow {x : ℚ} (hx : 0 < x) (e : ℤ) :
    Int.log 10 (x * 10 ^ e) = Int.log 10 x + e := by
  have hb : 1 < (10 : ℕ) := by norm_num
  have hxe : 0 < x * (10 : ℚ) ^ e := mul_pos hx (zpow10_pos e)
  have key : ∀ (y : ℚ), 0 < y → ∀ (f : ℤ), Int.log 10 y + f ≤ Int.log 10 (y * 10 ^ f) := by
    intro y hy f
    have h1 : ((10 : ℕ) : ℚ) ^ (Int.log 10 y + f) ≤ y * 10 ^ f := by
      rw [zpow_add₀ (by norm_num : ((10 : ℕ) : ℚ) ≠ 0)]
      have h2 : ((10 : ℕ) : ℚ) ^ Int.log 10 y ≤ y := Int.zpow_log_le_self hb hy
      have h3 : (0 : ℚ) < ((10 : ℕ) : ℚ) ^ f := by positivity
      have h4 : ((10 : ℕ) : ℚ) ^ f = (10 : ℚ) ^ f := by norm_num
      rw [h4]
      exact mul_le_mul_of_nonneg_right (by exact_mod_cast h2) (le_of_lt (zpow10_pos f))
    exact (Int.zpow_le_iff_le_log hb (mul_pos hy (zpow10_pos f))).mp h1
  have h1 : Int.log 10 x + e ≤ Int.log 10 (x * 10 ^ e) := key x hx e
  have h2 : Int.log 10 (x * 10 ^ e) + (-e) ≤ Int.log 10 (x * 10 ^ e * 10 ^ (-e)) := by
    exact key _ hxe (-e)
  have h3 : x * 10 ^ e * 10 ^ (-e) = x := by
    rw [mul_assoc, ← zpow_add₀ (by norm_num : (10 : ℚ) ≠ 0)]
    simp
  rw [h3] at h2
  omega

theorem roundSigPos_mul_zpow {x : ℚ} (hx : 0 < x) (e : ℤ) :
    roundSigPos (x * 10 ^ e) = roundSigPos x * 10 ^ e := by
  unfold roundSigPos
  rw [intLog10_mul_zpow hx e]
  have hne : (10 : ℚ) ≠ 0 := by norm_num
  have hdiv : x * 10 ^ e / (10 : ℚ) ^ (Int.log 10 x + e - 19) = x / 10 ^ (Int.log 10 x - 19) := by
    rw [div_eq_mul_inv, div_eq_mul_inv, ← zpow_neg, ← zpow_neg, mul_assoc,
      ← zpow_add₀ hne]
    congr 2
    omega
  rw [hdiv, mul_assoc, ← zpow_add₀ hne]
  congr 2
  omega

/-- decimal.js `a.add(b)`: the result is rounded to the configured
20 significant digits. -/
def dadd (x y : ℚ) : ℚ := roundSig (x + y)

/-- decimal.js `a.sub(b)`. -/
def dsub (x y : ℚ) : ℚ := roundSig (x - y)

/-- decimal.js `a.mul(b)`. -/
def dmul (x y : ℚ) : ℚ := roundSig (x * y)

/-- decimal.js `a.div(b)`.  Division by a zero divisor yields `Infinity`
in decimal.js; the rational model has no infinity, so theorems whose
inputs could reach a zero divisor carry an explicit nonzero hypothesis. -/
def ddiv (x y : ℚ) : ℚ := roundSig (x / y)

/-- decimal.js `a.round()`: to a whole number, ties away from zero (the
configured `ROUND_HALF_UP`). -/
def droundInt (x : ℚ) : ℚ :=
  if 0 ≤ x then ((⌊x + 1 / 2⌋ : ℤ) : ℚ) else -((⌊-x + 1 / 2⌋ : ℤ) : ℚ)

/-- The numeric value printed by decimal.js `toFixed(2)`: two decimal
places, ties away from zero. -/
def round2 (x : ℚ) : ℚ :=
  if 0 ≤ x then ((⌊100 * x + 1 / 2⌋ : ℤ) : ℚ) / 100
  else -(((⌊-(100 * x) + 1 / 2⌋ : ℤ) : ℚ) / 100)

/-- A transaction triple (`types.ts`), each component an exact decimal. -/
structure Tx where
  unitPrice : ℚ
  quantity : ℚ
  discount : ℚ
deriving DecidableEq

/-- `calculateDpp`: `transaction.unitPrice.mul(transaction.quantity).sub(transaction.discount)`. -/
def calculateDpp (t : Tx) : ℚ := dsub (dmul t.unitPrice t.quantity) t.discount

/-- `calculateDppNilaiLain`: `dpp.mul(RATIO_11).div(RATIO_12)`. -/
def calculateDppNilaiLain (dpp : ℚ) : ℚ := ddiv (dmul dpp 11) 12

/-- `calculatePpn`: `dppNilaiLain.mul(PERCENT_12)` with `PERCENT_12 = 0.12`. -/
def calculatePpn (dppNilaiLain : ℚ) : ℚ := dmul dppNilaiLain (12 / 100)

/-- `calculateTransactionPpn`: the full staged formula evaluator. -/
def calculateTransactionPpn (t : Tx) : ℚ :=
  calculatePpn (calculateDppNilaiLain (calculateDpp t))

/-- The error cases of `validateTransaction` (the Indonesian message
strings of the source are abstracted to tags). -/
inductive TxError
  | nonPositivePrice
  | nonPositiveQuantity
  | negativeDiscount
  | discountGeSubtotal
deriving DecidableEq

/-- `validateTransaction` from `calculator.ts`. -/
def validateTransaction (t : Tx) : Option TxError :=
  if t.unitPrice ≤ 0 then some .nonPositivePrice
  else if t.quantity ≤ 0 then some .nonPositiveQuantity
  else if t.discount < 0 then some .negativeDiscount
  else if dmul t.unitPrice t.quantity ≤ t.discount then some .discountGeSubtotal
  else none

/-- `SimulationConfig` (`types.ts`). -/
structure Config where
  referenceTransaction : Tx
  targetPpn : ℚ
  tolerance : ℚ
  priceMin : ℚ
  priceMax : ℚ
  discountMin : ℚ
  discountMax : ℚ
  quantityMin : ℚ
  quantityMax : ℚ
  quantityStep : ℚ
  priceStep : ℚ
  discountStep : ℚ
  alpha : ℚ
  beta : ℚ
  topNResults : ℕ
deriving DecidableEq

/-- `estimateCombinations`: each count is `range.sub(min).div(step).floor()
.toNumber() + 1`.  The JavaScript float product of the two counts decides
`estimate > 10^9` exactly in every case (both counts below `2^53` make the
product exact, and any larger product is far above the cap), so the model
multiplies exactly. -/
def estimateCombinations (c : Config) : ℤ :=
  (⌊ddiv (dsub c.discountMax c.discountMin) c.discountStep⌋ + 1) *
    (⌊ddiv (dsub c.quantityMax c.quantityMin) c.quantityStep⌋ + 1)

/-- The error cases of `validateConfig`; `searchSpaceTooLarge` carries the
estimate that the source interpolates into its message string. -/
inductive ConfigError
  | referenceInvalid (e : TxError)
  | nonPositiveTarget
  | negativeTolerance
  | nonPositiveQuantityMin
  | quantityMinGtMax
  | nonPositiveQuantityStep
  | searchSpaceTooLarge (estimate : ℤ)
deriving DecidableEq

/-- `validateConfig` of the most evolved engine (hard cap `1_000_000_000`). -/
def validateConfig (c : Config) : Option ConfigError :=
  match validateTransaction c.referenceTransaction with
  | some e => some (.referenceInvalid e)
  | none =>
    if c.targetPpn ≤ 0 then some .nonPositiveTarget
    else if c.tolerance < 0 then some .negativeTolerance
    else if c.quantityMin ≤ 0 then some .nonPositiveQuantityMin
    else if c.quantityMax < c.quantityMin then some .quantityMinGtMax
    else if c.quantityStep ≤ 0 then some .nonPositiveQuantityStep
    else if 1000000000 < estimateCombinations c then
      some (.searchSpaceTooLarge (estimateCombinations c))
    else none

theorem roundSig_pos_eq {x : ℚ} (hx : 0 < x) : roundSig x = roundSigPos x := by
  rw [roundSig, if_pos hx]

/-- A positive integer below `10^20` that is not itself a power of ten,
scaled by any power of ten and perturbed by less than half a unit of its
20th significant digit, rounds back to itself. -/
theorem roundSigPos_int_near (M F : ℤ) {δ : ℚ} (hM0 : 0 < M) (hM : M < 10 ^ 20)
    (hnp : ∀ j : ℕ, M ≠ 10 ^ j)
    (hδ : |δ| < (10 : ℚ) ^ (Int.log 10 (M : ℚ) + F - 19) / 2) :
    roundSigPos ((M : ℚ) * 10 ^ F + δ) = (M : ℚ) * 10 ^ F := by
  have hb : 1 < (10 : ℕ) := by norm_num
  have hMq : (0 : ℚ) < (M : ℚ) := by exact_mod_cast hM0
  set Lm : ℤ := Int.log 10 (M : ℚ) with hLm
  have hLm0 : 0 ≤ Lm := by
    rw [hLm]
    apply (Int.zpow_le_iff_le_log hb hMq).mp
    have h1 : (1 : ℚ) ≤ (M : ℚ) := by exact_mod_cast hM0
    simpa using h1
  have hLm19 : Lm ≤ 19 := by
    have : (M : ℚ) < ((10 : ℕ) : ℚ) ^ (20 : ℤ) := by
      push_cast
      exact_mod_cast hM
    have := (Int.lt_zpow_iff_log_lt hb hMq).mp this
    omega
  set w : ℕ := (19 - Lm).toNat with hw
  have hwz : (19 : ℤ) - Lm = (w : ℤ) := by omega
  set n : ℤ := M * 10 ^ w with hn
  have hlow : ((10 : ℕ) : ℚ) ^ Lm ≤ (M : ℚ) := Int.zpow_log_le_self hb hMq
  have hhigh : (M : ℚ) < ((10 : ℕ) : ℚ) ^ (Lm + 1) := Int.lt_zpow_succ_log_self hb (M : ℚ)
  -- `10 ^ Lm ≤ M < 10 ^ (Lm + 1)` over the integers
  have hlowZ : (10 : ℤ) ^ Lm.toNat ≤ M := by
    have h1 : ((10 : ℚ)) ^ (Lm.toNat : ℕ) ≤ (M : ℚ) := by
      push_cast at hlow
      rw [show Lm = ((Lm.toNat : ℕ) : ℤ) by omega, zpow_natCast] at hlow
      exact hlow
    exact_mod_cast h1
  have hhighZ : M < (10 : ℤ) ^ (Lm.toNat + 1) := by
    have h1 : (M : ℚ) < ((10 : ℚ)) ^ ((Lm.toNat + 1 : ℕ) : ℕ) := by
      push_cast at hhigh
      rw [show Lm + 1 = ((Lm.toNat + 1 : ℕ) : ℤ) by omega, zpow_natCast] at hhigh
      exact hhigh
    exact_mod_cast h1
  have hn1 : 10 ^ 19 < n := by
    have hge : (10 : ℤ) ^ 19 ≤ n := by
      have : (10 : ℤ) ^ 19 = 10 ^ Lm.toNat * 10 ^ w := by
        rw [← pow_add]
        congr 1
        omega
      rw [this, hn]
      have hpw : (0 : ℤ) < 10 ^ w := by positivity
      exact mul_le_mul_of_nonneg_right hlowZ (le_of_lt hpw)
    rcases lt_or_eq_of_le hge with h | h
    · exact h
    · exfalso
      have h10w : (10 : ℤ) ^ w ∣ 10 ^ 19 := by
        rw [h, hn]
        exact Dvd.intro_left M rfl
      have hMeq : M = 10 ^ (19 - w) := by
        have hw19 : w ≤ 19 := by
          by_contra hcon
          push_neg at hcon
          have : (10 : ℤ) ^ 19 < 10 ^ w := by
            apply pow_lt_pow_right₀ (by norm_num) hcon
          have hMw : (1 : ℤ) * 10 ^ w ≤ M * 10 ^ w := by
            apply mul_le_mul_of_nonneg_right (by omega) (by positivity)
          omega
        have hsplit : (10 : ℤ) ^ 19 = 10 ^ (19 - w) * 10 ^ w := by
          rw [← pow_add]
          congr 1
          omega
        have hcancel : M * 10 ^ w = 10 ^ (19 - w) * 10 ^ w := by
          rw [← hn, ← h, hsplit]
        have hpw : (10 : ℤ) ^ w ≠ 0 := by positivity
        exact mul_right_cancel₀ hpw hcancel
      exact hnp (19 - w) hMeq
  have hn2 : n < 10 ^ 20 := by
    have : n < (10 : ℤ) ^ (Lm.toNat + 1) * 10 ^ w := by
      rw [hn]
      have hpw : (0 : ℤ) < 10 ^ w := by positivity
      exact mul_lt_mul_of_pos_right hhighZ hpw
    have hle : (10 : ℤ) ^ (Lm.toNat + 1) * 10 ^ w ≤ 10 ^ 20 := by
      rw [← pow_add]
      apply pow_le_pow_right₀ (by norm_num)
      omega
    omega
  have hrepr : (M : ℚ) * 10 ^ F = (n : ℚ) * 10 ^ (Lm + F - 19) := by
    rw [hn]
    push_cast
    rw [mul_assoc, ← zpow_natCast (10 : ℚ) w, ← zpow_add₀ (by norm_num : (10 : ℚ) ≠ 0)]
    congr 2
    omega
  rw [hrepr]
  exact roundSigPos_near n (Lm + F - 19) hn1 hn2 hδ

/-- Shared final stage of the C1 analysis: multiplying the (rounded)
intermediate base by `12%` recovers `A / 100` exactly, for any multiple
`A` of eleven and any perturbation of at most `4` ulps of the quotient. -/
theorem staged_tail (A e L : ℤ) (s : ℚ) (hA0 : 0 < A) (hA : A < 10 ^ 20)
    (h11 : (11 : ℤ) ∣ A) (hL17 : L ≤ 17)
    (hLm : L + 1 ≤ Int.log 10 (A : ℚ)) (hs : |s| ≤ 4) :
    roundSig (((A : ℚ) / 100 + s * 10 ^ (L - 21)) * 10 ^ e) =
      (A : ℚ) * 10 ^ (e - 2) := by
  have hAq : (0 : ℚ) < (A : ℚ) := by exact_mod_cast hA0
  have hA11 : 11 ≤ A := by
    rcases h11 with ⟨c, hc⟩
    have : 1 ≤ c := by nlinarith
    omega
  have hA11q : (11 : ℚ) ≤ (A : ℚ) := by exact_mod_cast hA11
  have hδsmall : |s * (10 : ℚ) ^ (L - 21)| ≤ 4 * 10 ^ ((-4 : ℤ)) := by
    rw [abs_mul, abs_of_pos (zpow10_pos _)]
    have h1 : (10 : ℚ) ^ (L - 21) ≤ 10 ^ ((-4 : ℤ)) := by
      apply zpow_le_zpow_right₀ (by norm_num)
      omega
    have h2 : (0 : ℚ) ≤ |s| := abs_nonneg s
    nlinarith [zpow10_pos (L - 21)]
  have h40 : (4 : ℚ) * 10 ^ ((-4 : ℤ)) = 4 / 10000 := by norm_num
  have hy0 : (0 : ℚ) < (A : ℚ) / 100 + s * 10 ^ (L - 21) := by
    have := abs_le.mp hδsmall
    rw [h40] at this
    linarith
  rw [roundSig_pos_eq (by positivity), roundSigPos_mul_zpow hy0 e]
  have hnear : roundSigPos ((A : ℚ) / 100 + s * 10 ^ (L - 21)) = (A : ℚ) * 10 ^ ((-2 : ℤ)) := by
    have hrepr : (A : ℚ) / 100 = (A : ℚ) * 10 ^ ((-2 : ℤ)) := by
      rw [zpow_neg]
      norm_num
      ring
    rw [hrepr]
    apply roundSigPos_int_near A (-2) hA0 hA
    · intro j hj
      have hdvd : (11 : ℤ) ∣ 10 ^ j := hj ▸ h11
      have hp : Prime (11 : ℤ) := by norm_num
      have := hp.dvd_of_dvd_pow hdvd
      norm_num at this
    · have hgap : (4 : ℚ) * 10 ^ (L - 21) < 10 ^ (Int.log 10 (A : ℚ) + (-2) - 19) / 2 := by
        have h5 : (10 : ℚ) ^ (Int.log 10 (A : ℚ) + (-2) - 19) ≥ 10 ^ (L + 1 - 21) := by
          apply zpow_le_zpow_right₀ (by norm_num)
          omega
        have h6 : (10 : ℚ) ^ (L + 1 - 21) = 10 * 10 ^ (L - 21) := by
          rw [show L + 1 - 21 = 1 + (L - 21) by omega,
            zpow_add₀ (by norm_num : (10 : ℚ) ≠ 0)]
          norm_num
        have h7 := zpow10_pos (L - 21)
        linarith
      calc |s * (10 : ℚ) ^ (L - 21)| ≤ 4 * 10 ^ (L - 21) := by
            rw [abs_mul, abs_of_pos (zpow10_pos _)]
            have := zpow10_pos (L - 21)
            nlinarith [abs_nonneg s]
        _ < _ := hgap
  rw [hnear, mul_assoc, ← zpow_add₀ (by norm_num : (10 : ℚ) ≠ 0)]
  congr 2
  omega

/-- Core of claim C1: under the configured 20-significant-digit
arithmetic, the staged transform `base.mul(11).div(12).mul(0.12)` returns
exactly `base * 11/100` whenever the base has at most 18 significant
decimal digits. -/
theorem staged_eq_exact (m e : ℤ) (hm0 : 0 < m) (hm : m < 10 ^ 18) :
    calculatePpn (calculateDppNilaiLain ((m : ℚ) * 10 ^ e)) =
      (m : ℚ) * 10 ^ e * (11 / 100) := by
  have e18 : (10 : ℤ) ^ 18 = 1000000000000000000 := by norm_num
  have e20 : (10 : ℤ) ^ 20 = 100000000000000000000 := by norm_num
  set A : ℤ := 11 * m with hA
  have hA0 : 0 < A := by omega
  have hAq : (0 : ℚ) < (A : ℚ) := by exact_mod_cast hA0
  have hA20 : A < 10 ^ 20 := by omega
  -- step 1: `base.mul(11)` is exact
  have h1 : dmul ((m : ℚ) * 10 ^ e) 11 = (A : ℚ) * 10 ^ e := by
    unfold dmul
    have harg : (m : ℚ) * 10 ^ e * 11 = (A : ℚ) * 10 ^ e := by
      rw [hA]; push_cast; ring
    rw [harg, roundSig_eq_self A e (by rw [abs_of_pos hA0]; omega)]
  -- step 2: `.div(12)` scales off the power of ten
  set x : ℚ := (A : ℚ) / 12 with hxdef
  have hx0 : 0 < x := by positivity
  have h2 : ddiv ((A : ℚ) * 10 ^ e) 12 = roundSigPos x * 10 ^ e := by
    unfold ddiv
    have harg : (A : ℚ) * 10 ^ e / 12 = x * 10 ^ e := by
      rw [hxdef]; ring
    rw [harg, roundSig_pos_eq (by positivity), roundSigPos_mul_zpow hx0 e]
  -- magnitude of the quotient
  have hb : 1 < (10 : ℕ) := by norm_num
  set L : ℤ := Int.log 10 x with hL
  have hL17 : L ≤ 17 := by
    have hxlt : x < ((10 : ℕ) : ℚ) ^ (18 : ℤ) := by
      rw [hxdef, div_lt_iff₀ (by norm_num : (0 : ℚ) < 12)]
      have hAlt : (A : ℚ) < 1000000000000000000 * 12 := by
        exact_mod_cast (show A < 1000000000000000000 * 12 by omega)
      have h18 : ((10 : ℕ) : ℚ) ^ (18 : ℤ) = 1000000000000000000 := by norm_num
      rw [h18]
      linarith
    have := (Int.lt_zpow_iff_log_lt hb hx0).mp hxlt
    omega
  set t : ℕ := (19 - L).toNat with ht
  have htz : (19 : ℤ) - L = (t : ℤ) := by omega
  have ht2 : 2 ≤ t := by omega
  set a : ℤ := A * 10 ^ t with ha
  set N : ℤ := a / 12 with hNdef
  set r : ℤ := a % 12 with hrdef
  have hdecomp : 12 * N + r = a := Int.ediv_add_emod a 12
  have hr0 : 0 ≤ r := Int.emod_nonneg a (by norm_num)
  have hr12 : r < 12 := Int.emod_lt_of_pos a (by norm_num)
  have h4r : 4 ∣ r := by
    have h4a : 4 ∣ a := by
      rw [ha, show t = (t - 2) + 2 by omega, pow_add]
      exact ⟨A * 10 ^ (t - 2) * 25, by ring⟩
    omega
  have hrcases : r = 0 ∨ r = 4 ∨ r = 8 := by omega
  -- the quotient scaled to its 20-digit grid
  have hscale : x * (10 : ℚ) ^ ((19 : ℤ) - L) = (a : ℚ) / 12 := by
    rw [hxdef, htz, ha]
    push_cast
    rw [zpow_natCast]
    ring
  have hlow : (10 : ℚ) ^ L ≤ x := by
    have h := Int.zpow_log_le_self hb hx0
    rw [← hL] at h
    exact_mod_cast h
  have hhigh : x < (10 : ℚ) ^ (L + 1) := by
    have h := Int.lt_zpow_succ_log_self hb x
    rw [← hL] at h
    exact_mod_cast h
  -- `Int.log 10 A` exceeds `L`
  have hLm : L + 1 ≤ Int.log 10 (A : ℚ) := by
    apply (Int.zpow_le_iff_le_log hb hAq).mp
    have h12 : (12 : ℚ) * 10 ^ L ≤ (A : ℚ) := by
      have := mul_le_mul_of_nonneg_left hlow (by norm_num : (0 : ℚ) ≤ 12)
      calc (12 : ℚ) * 10 ^ L ≤ 12 * x := this
        _ = (A : ℚ) := by rw [hxdef]; ring
    have hsucc : ((10 : ℕ) : ℚ) ^ (L + 1) = 10 * 10 ^ L := by
      push_cast
      rw [zpow_add₀ (by norm_num : (10 : ℚ) ≠ 0)]
      ring
    rw [hsucc]
    have := zpow10_pos L
    linarith
  -- compute the rounded quotient in each remainder case and finish
  have hfinal : ∀ k : ℤ, 12 * k = a + (12 * k - a) →
      roundSigPos x = (k : ℚ) * 10 ^ (L - 19) →
      |((12 * k - a : ℤ) : ℚ)| ≤ 4 →
      calculatePpn (roundSigPos x * 10 ^ e) = (m : ℚ) * 10 ^ e * (11 / 100) := by
    intro k _ hQ hkabs
    set s : ℚ := ((12 * k - a : ℤ) : ℚ) with hs
    unfold calculatePpn dmul
    have harg : roundSigPos x * 10 ^ e * (12 / 100) =
        ((A : ℚ) / 100 + s * 10 ^ (L - 21)) * 10 ^ e := by
      rw [hQ]
      have hAform : (A : ℚ) / 100 = (a : ℚ) * 10 ^ (L - 21) := by
        rw [ha]
        push_cast
        rw [mul_assoc, ← zpow_natCast (10 : ℚ) t, ← zpow_add₀ (by norm_num : (10 : ℚ) ≠ 0),
          show (t : ℤ) + (L - 21) = -2 by omega, zpow_neg]
        norm_num
        ring
      rw [hAform, hs]
      push_cast
      have hsplit : (10 : ℚ) ^ (L - 19) = 10 ^ (L - 21) * 100 := by
        rw [show L - 19 = (L - 21) + 2 by omega, zpow_add₀ (by norm_num : (10 : ℚ) ≠ 0)]
        norm_num
      rw [hsplit]
      ring
    rw [harg]
    have := staged_tail A e L s hA0 hA20 ⟨m, hA⟩ hL17 hLm (by rw [hs] at hkabs ⊢; exact hkabs)
    rw [this, hA]
    push_cast
    rw [show e - 2 = e + (-2 : ℤ) by omega, zpow_add₀ (by norm_num : (10 : ℚ) ≠ 0)]
    norm_num
    ring
  -- assemble the evaluator chain
  unfold calculateDppNilaiLain
  rw [h1, h2]
  rcases hrcases with hc | hc | hc
  · -- exact quotient
    apply hfinal N (by omega)
    · apply roundSigPos_eval L N hlow hhigh
      · rw [hscale]
        have : (a : ℚ) / 12 = (N : ℚ) := by
          have : (a : ℚ) = 12 * (N : ℚ) := by exact_mod_cast (show a = 12 * N by omega)
          rw [this]; ring
        rw [this]; linarith
      · rw [hscale]
        have : (a : ℚ) / 12 = (N : ℚ) := by
          have : (a : ℚ) = 12 * (N : ℚ) := by exact_mod_cast (show a = 12 * N by omega)
          rw [this]; ring
        rw [this]; linarith
    · have : 12 * N - a = 0 := by omega
      rw [this]; norm_num
  · -- remainder 4: rounds down by a third of an ulp
    apply hfinal N (by omega)
    · apply roundSigPos_eval L N hlow hhigh
      · rw [hscale]
        have : (a : ℚ) / 12 = (N : ℚ) + 1 / 3 := by
          have h12 : (a : ℚ) = 12 * (N : ℚ) + 4 := by exact_mod_cast (show a = 12 * N + 4 by omega)
          rw [h12]; ring
        rw [this]; linarith
      · rw [hscale]
        have : (a : ℚ) / 12 = (N : ℚ) + 1 / 3 := by
          have h12 : (a : ℚ) = 12 * (N : ℚ) + 4 := by exact_mod_cast (show a = 12 * N + 4 by omega)
          rw [h12]; ring
        rw [this]; linarith
    · have : 12 * N - a = -4 := by omega
      rw [this]; norm_num
  · -- remainder 8: rounds up by a third of an ulp
    apply hfinal (N + 1) (by omega)
    · apply roundSigPos_eval L (N + 1) hlow hhigh
      · rw [hscale]
        have : (a : ℚ) / 12 = (N : ℚ) + 2 / 3 := by
          have h12 : (a : ℚ) = 12 * (N : ℚ) + 8 := by exact_mod_cast (show a = 12 * N + 8 by omega)
          rw [h12]; ring
        rw [this]; push_cast; linarith
      · rw [hscale]
        have : (a : ℚ) / 12 = (N : ℚ) + 2 / 3 := by
          have h12 : (a : ℚ) = 12 * (N : ℚ) + 8 := by exact_mod_cast (show a = 12 * N + 8 by omega)
          rw [h12]; ring
        rw [this]; push_cast; linarith
    · have : 12 * (N + 1) - a = 4 := by omega
      rw [this]; norm_num

/-- Evaluation helper: `roundSig` is the identity on values equal to an
integer of at most 20 digits. -/
theorem roundSig_lit (n : ℤ) (q : ℚ) (hq : q = (n : ℚ)) (h : |n| < 10 ^ 20) :
    roundSig q = q := by
  rw [hq, roundSig_intCast n h]

/-- The transaction exhibiting the double-rounding slip of the staged
formula: its base `2000000000000000001` needs 19 significant digits. -/
def c1Tx : Tx := ⟨2000000000000000001, 1, 0⟩

theorem c1Tx_ppn : calculateTransactionPpn c1Tx = 22000000000000000012 / 100 := by
  have hmul : dmul (2000000000000000001 : ℚ) 1 = 2000000000000000001 := by
    unfold dmul
    rw [roundSig_lit 2000000000000000001 ((2000000000000000001 : ℚ) * 1)
      (by norm_num) (by norm_num)]
    norm_num
  have hsub : dsub (2000000000000000001 : ℚ) 0 = 2000000000000000001 := by
    unfold dsub
    rw [roundSig_lit 2000000000000000001 ((2000000000000000001 : ℚ) - 0)
      (by norm_num) (by norm_num)]
    norm_num
  have hdpp : calculateDpp c1Tx = 2000000000000000001 := by
    simp only [calculateDpp, c1Tx]
    rw [hmul, hsub]
  have h11 : dmul (2000000000000000001 : ℚ) 11 = 22000000000000000011 := by
    unfold dmul
    rw [roundSig_lit 22000000000000000011 ((2000000000000000001 : ℚ) * 11)
      (by norm_num) (by norm_num)]
    norm_num
  have hdiv : ddiv (22000000000000000011 : ℚ) 12 = 18333333333333333343 / 10 := by
    unfold ddiv
    have := @roundSig_eval 18 18333333333333333343
      ((22000000000000000011 : ℚ) / 12) (by norm_num) (by norm_num)
      (by norm_num) (by norm_num)
    rw [this]
    norm_num
  have hmul12 : dmul ((18333333333333333343 : ℚ) / 10) (12 / 100) =
      22000000000000000012 / 100 := by
    unfold dmul
    have := @roundSig_eval 17 22000000000000000012
      ((18333333333333333343 : ℚ) / 10 * (12 / 100)) (by norm_num) (by norm_num)
      (by norm_num) (by norm_num)
    rw [this]
    norm_num
  unfold calculateTransactionPpn calculatePpn calculateDppNilaiLain
  rw [hdpp, h11, hdiv, hmul12]

/-- C1, counterexample: a transaction satisfying all the claim's
hypotheses on which the staged computation (`base × 11/12` rounded to 20
digits, then `× 12%` rounded again) does not equal `base × 11/100`: the
double rounding lands one unit of the 20th significant digit high. -/
theorem c1_counterexample :
    0 < c1Tx.unitPrice ∧ 0 < c1Tx.quantity ∧ 0 ≤ c1Tx.discount ∧
      c1Tx.discount < c1Tx.unitPrice * c1Tx.quantity ∧
      calculateTransactionPpn c1Tx ≠
        (c1Tx.unitPrice * c1Tx.quantity - c1Tx.discount) * (11 / 100) := by
  refine ⟨by norm_num [c1Tx], by norm_num [c1Tx], by norm_num [c1Tx], by norm_num [c1Tx], ?_⟩
  rw [c1Tx_ppn]
  norm_num [c1Tx]

/-- C1 (amended): for every transaction whose subtotal and base are
exactly representable at 20 significant digits and whose base
`unitPrice×quantity − discount` has at most 18 significant decimal digits
(mantissa `m < 10^18`), the Formula Evaluator returns exactly
`(unitPrice×quantity − discount) × 11/100`; for longer bases the staged
computation can differ by one unit in the 20th significant digit. -/
theorem c1_amended (t : Tx) (m e : ℤ)
    (_hup : 0 < t.unitPrice) (_hq : 0 < t.quantity) (_hd : 0 ≤ t.discount)
    (_hdlt : t.discount < t.unitPrice * t.quantity)
    (hsubExact : calculateDpp t = t.unitPrice * t.quantity - t.discount)
    (hbase : calculateDpp t = (m : ℚ) * 10 ^ e)
    (hm0 : 0 < m) (hm : m < 10 ^ 18) :
    calculateTransactionPpn t = (t.unitPrice * t.quantity - t.discount) * (11 / 100) := by
  unfold calculateTransactionPpn
  rw [hbase, staged_eq_exact m e hm0 hm, ← hbase, hsubExact]

theorem c1_amended_witness :
    calculateTransactionPpn ⟨100, 1, 0⟩ = ((100 : ℚ) * 1 - 0) * (11 / 100) := by
  have hmul : dmul (100 : ℚ) 1 = 100 := by
    unfold dmul
    rw [roundSig_lit 100 ((100 : ℚ) * 1) (by norm_num) (by norm_num)]
    norm_num
  have hsub : dsub (100 : ℚ) 0 = 100 := by
    unfold dsub
    rw [roundSig_lit 100 ((100 : ℚ) - 0) (by norm_num) (by norm_num)]
    norm_num
  have hdpp : calculateDpp ⟨100, 1, 0⟩ = 100 := by
    simp only [calculateDpp]
    rw [hmul, hsub]
  exact c1_amended ⟨100, 1, 0⟩ 1 2 (by norm_num) (by norm_num) (by norm_num)
    (by norm_num) (by rw [hdpp]; norm_num) (by rw [hdpp]; norm_num)
    (by norm_num) (by norm_num)

/-- `PPN_RATE = new Decimal('0.11')`. -/
def PPN_RATE : ℚ := 11 / 100

/-- `calculateRequiredUnitPrice`: `(targetPpn / 0.11 + discount) / quantity`. -/
def calculateRequiredUnitPrice (targetPpn quantity discount : ℚ) : ℚ :=
  ddiv (dadd (ddiv targetPpn PPN_RATE) discount) quantity

/-- `calculateRequiredDiscount`: `unitPrice * quantity - targetPpn / 0.11`. -/
def calculateRequiredDiscount (targetPpn unitPrice quantity : ℚ) : ℚ :=
  dsub (dmul unitPrice quantity) (ddiv targetPpn PPN_RATE)

/-- `calculateRequiredQuantity`: `(targetPpn / 0.11 + discount) / unitPrice`. -/
def calculateRequiredQuantity (targetPpn unitPrice discount : ℚ) : ℚ :=
  ddiv (dadd (ddiv targetPpn PPN_RATE) discount) unitPrice

/-- `roundToStep`: `value.div(step).round().mul(step)`. -/
def roundToStep (value step : ℚ) : ℚ := dmul (droundInt (ddiv value step)) step

/-- The candidate list built around a solved exact value by all three
`process*` closures of `runSimulation`: the exact value alone when it is
already on the step grid, otherwise the exact value, the grid point and
both step neighbours, in source push order. -/
def candidateList (exact step : ℚ) : List ℚ :=
  if roundToStep exact step = exact then [exact]
  else [exact, roundToStep exact step, dadd (roundToStep exact step) step,
    dsub (roundToStep exact step) step]

/-- `createTransactionKey`: the string
`unitPrice.toFixed(2)|quantity.toString()|discount.toFixed(2)`, modelled
by the printed values; each Boolean records whether a leading minus sign
is printed for a negative value that rounds to zero (`"-0.00"`), which
differs from `"0.00"` as a string. -/
def createTransactionKey (unitPrice quantity discount : ℚ) :
    (ℚ × Bool) × ℚ × (ℚ × Bool) :=
  ((round2 unitPrice, decide (unitPrice < 0 ∧ round2 unitPrice = 0)), quantity,
    (round2 discount, decide (discount < 0 ∧ round2 discount = 0)))

/-- `ResultMetadata` (types.ts). -/
structure ResultMetadata where
  ppnDifferencePercent : ℚ
  unitPriceDifference : ℚ
  quantityDifference : ℚ
  discountDifference : ℚ
  dppNilaiLain : ℚ
deriving DecidableEq

/-- `SimulationResult` as produced by this engine's `createResult` (the
serialized `humanScore` decoration exists only in a different repository
iteration and is never read by the merge logic under verification). -/
structure SimResult where
  transaction : Tx
  calculatedPpn : ℚ
  ppnDifference : ℚ
  score : ℚ
  metadata : ResultMetadata
deriving DecidableEq

/-- `createResult` of the most evolved engine. -/
def createResult (transaction : Tx) (targetPpn : ℚ) (reference : Tx)
    (alpha beta : ℚ) : SimResult :=
  let calculatedPpn := calculateTransactionPpn transaction
  let ppnDifference := |dsub calculatedPpn targetPpn|
  { transaction := transaction
    calculatedPpn := calculatedPpn
    ppnDifference := ppnDifference
    score := dadd (dadd ppnDifference
        (dmul alpha |dsub transaction.unitPrice reference.unitPrice|))
      (dmul beta |dsub transaction.discount reference.discount|)
    metadata :=
      { ppnDifferencePercent :=
          if targetPpn = 0 then 0 else dmul (ddiv ppnDifference targetPpn) 100
        unitPriceDifference := dsub transaction.unitPrice reference.unitPrice
        quantityDifference := dsub transaction.quantity reference.quantity
        discountDifference := dsub transaction.discount reference.discount
        dppNilaiLain := ddiv (dmul (dsub (dmul transaction.unitPrice
          transaction.quantity) transaction.discount) 11) 12 } }

/-- One JavaScript range loop `for (let v = lo; v.lte(hi); v = v.add(step))`,
with explicit fuel (one unit per produced element). -/
def decRangeAux (hi step : ℚ) : ℚ → ℕ → List ℚ
  | _, 0 => []
  | lo, fuel + 1 => if lo ≤ hi then lo :: decRangeAux hi step (dadd lo step) fuel else []

/-- The value list of a range loop.  The fuel covers every terminating
execution whose increments are exact at 20 significant digits; the source
itself never terminates when `step ≤ 0` and `lo ≤ hi`. -/
def decRange (lo hi step : ℚ) : List ℚ :=
  decRangeAux hi step lo (⌊(hi - lo) / step⌋ + 2).toNat

/-- decimal.js `value.clamp(lo, hi)`. -/
def dclamp (x lo hi : ℚ) : ℚ := min (max x lo) hi

/-- A JavaScript `Array.prototype.sort` call with comparator
`(a, b) => a.sub(center).abs().cmp(b.sub(center).abs())`; sorting is
skipped for lists of length at most one exactly as in the source. -/
def sortByDistance (center : ℚ) (l : List ℚ) : List ℚ :=
  if l.length ≤ 1 then l
  else l.mergeSort (fun a b => decide (|dsub a center| ≤ |dsub b center|))

/-- `qtyCenter = refQty.clamp(qtyMin, qtyMax)` (source local). -/
def qtyCenter (refQty qtyMin qtyMax : ℚ) : ℚ := dclamp refQty qtyMin qtyMax

/-- `discountCenter = discountMin.add(discountMax).div(2)` (source local). -/
def discountCenter (discountMin discountMax : ℚ) : ℚ :=
  ddiv (dadd discountMin discountMax) 2

/-- `generatePriorityOrder`: build both candidate-value lists, sort each by
absolute distance from its centre (the reference quantity clamped into
range; the discount interval midpoint), and yield the Cartesian product in
that order. -/
def generatePriorityOrder (refQty qtyMin qtyMax qtyStep discountMin discountMax
    discountStep : ℚ) : List (ℚ × ℚ) :=
  let qtyValues := sortByDistance (qtyCenter refQty qtyMin qtyMax)
    (decRange qtyMin qtyMax qtyStep)
  let discountValues := sortByDistance (discountCenter discountMin discountMax)
    (decRange discountMin discountMax discountStep)
  qtyValues.flatMap (fun q => discountValues.map (fun d => (q, d)))

/-- The callbacks of `runSimulation`: `onProgress` and `onResult` return
nothing in the source, so they are modelled as state transformers over an
abstract callback state `σ` that the engine itself never reads. -/
structure Handlers (σ : Type) where
  onProgress : ℚ → σ → σ
  onResult : SimResult → σ → σ

/-- The mutable state of one `runSimulation` call.  `trace` is a
specification-only log recording, for each `process*` call, its two loop
arguments and the value of `perfectCount` immediately after the call; it
observes the walk without altering it. -/
structure EngineState (σ : Type) where
  results : List SimResult
  seen : List ((ℚ × Bool) × ℚ × (ℚ × Bool))
  count : ℕ
  perfectCount : ℕ
  trace : List ((ℚ × ℚ) × ℕ)
  cb : σ

/-- The shared candidate-handling body of the three `process*` closures;
the dimension range checks have already been performed by the caller. -/
def tryCandidate (cfg : Config) (h : Handlers σ) (t : Tx) (st : EngineState σ) :
    EngineState σ :=
  let key := createTransactionKey t.unitPrice t.quantity t.discount
  if key ∈ st.seen then st
  else
    let st1 := { st with seen := key :: st.seen }
    if validateTransaction t ≠ none then st1
    else
      let r := createResult t cfg.targetPpn cfg.referenceTransaction cfg.alpha cfg.beta
      if r.ppnDifference ≤ cfg.tolerance then
        { st1 with
          results := st1.results ++ [r]
          cb := h.onResult r st1.cb
          perfectCount :=
            if r.ppnDifference = 0 then st1.perfectCount + 1 else st1.perfectCount }
      else st1

/-- `processQtyDiscount`: solve the unit price for a `(quantity, discount)`
pair, then try the exact, snapped and neighbouring prices. -/
def processQtyDiscount (cfg : Config) (h : Handlers σ) (quantity discount : ℚ)
    (st : EngineState σ) : EngineState σ :=
  let st' := (candidateList (calculateRequiredUnitPrice cfg.targetPpn quantity discount)
      cfg.priceStep).foldl
    (fun st unitPrice =>
      if unitPrice < cfg.priceMin ∨ cfg.priceMax < unitPrice ∨ unitPrice ≤ 0 then st
      else tryCandidate cfg h ⟨unitPrice, quantity, discount⟩ st)
    st
  { st' with trace := st'.trace ++ [((quantity, discount), st'.perfectCount)] }

/-- `processPriceDiscount`: solve the quantity for a fixed
`(unitPrice, discount)` pair. -/
def processPriceDiscount (cfg : Config) (h : Handlers σ) (unitPrice discount : ℚ)
    (st : EngineState σ) : EngineState σ :=
  let st' := (candidateList (calculateRequiredQuantity cfg.targetPpn unitPrice discount)
      cfg.quantityStep).foldl
    (fun st quantity =>
      if quantity < cfg.quantityMin ∨ cfg.quantityMax < quantity ∨ quantity ≤ 0 then st
      else tryCandidate cfg h ⟨unitPrice, quantity, discount⟩ st)
    st
  { st' with trace := st'.trace ++ [((unitPrice, discount), st'.perfectCount)] }

/-- `processQtyUnitPrice`: solve the discount for a `(quantity, unitPrice)`
pair; the source checks the discount only against its range, not for
positivity (validation catches negatives later). -/
def processQtyUnitPrice (cfg : Config) (h : Handlers σ) (quantity unitPrice : ℚ)
    (st : EngineState σ) : EngineState σ :=
  let st' := (candidateList (calculateRequiredDiscount cfg.targetPpn unitPrice quantity)
      cfg.discountStep).foldl
    (fun st discount =>
      if discount < cfg.discountMin ∨ cfg.discountMax < discount then st
      else tryCandidate cfg h ⟨unitPrice, quantity, discount⟩ st)
    st
  { st' with trace := st'.trace ++ [((quantity, unitPrice), st'.perfectCount)] }

def incCount (st : EngineState σ) : EngineState σ := { st with count := st.count + 1 }

/-- `if (onProgress && count % 1000 === 0) onProgress(Math.min(count /
totalEstimate, 0.99))`. -/
def progressIfDue (h : Handlers σ) (totalEstimate : ℤ) (st : EngineState σ) :
    EngineState σ :=
  if st.count % 1000 = 0 then
    { st with cb := h.onProgress (min ((st.count : ℚ) / (totalEstimate : ℚ)) (99 / 100)) st.cb }
  else st

/-- A loop with its early-termination check at the top of each iteration:
`if (perfectCount >= topN) break; body(v);`. -/
def walkCheckFirst (topN : ℕ) (step : ℚ → EngineState σ → EngineState σ) :
    List ℚ → EngineState σ → EngineState σ
  | [], st => st
  | v :: vs, st =>
    if topN ≤ st.perfectCount then st
    else walkCheckFirst topN step vs (step v st)

/-- A loop over the priority iterator:
`body(p); count++; if (perfectCount >= topN) break; <after>;`. -/
def walkCheckAfter (topN : ℕ) (step : ℚ × ℚ → EngineState σ → EngineState σ)
    (after : EngineState σ → EngineState σ) :
    List (ℚ × ℚ) → EngineState σ → EngineState σ
  | [], st => st
  | p :: ps, st =>
    let st1 := incCount (step p st)
    if topN ≤ st1.perfectCount then st1
    else walkCheckAfter topN step after ps (after st1)

def initState (s : σ) : EngineState σ := ⟨[], [], 0, 0, [], s⟩

/-- The walk of `runSimulation` (most evolved variant), producing the
final engine state; `runSimulation` below assembles the returned list. -/
def runSimulationState (cfg : Config) (h : Handlers σ) (s0 : σ) : EngineState σ :=
  let totalEstimate := estimateCombinations cfg
  let qtyLocked := cfg.quantityMin = cfg.quantityMax
  let discountLocked := cfg.discountMin = cfg.discountMax
  let priceLocked := cfg.priceMin = cfg.priceMax
  let shouldUseSmartOrder := 5000 < totalEstimate
  let qtyRange := decRange cfg.quantityMin cfg.quantityMax cfg.quantityStep
  let discountRange := decRange cfg.discountMin cfg.discountMax cfg.discountStep
  let priorityPairs := generatePriorityOrder cfg.referenceTransaction.quantity
    cfg.quantityMin cfg.quantityMax cfg.quantityStep cfg.discountMin cfg.discountMax
    cfg.discountStep
  let st0 := initState s0
  let st :=
    if priceLocked ∧ discountLocked then
      processPriceDiscount cfg h cfg.priceMin cfg.discountMin st0
    else if priceLocked then
      walkCheckFirst cfg.topNResults
        (fun quantity st => incCount (processQtyUnitPrice cfg h quantity cfg.priceMin st))
        qtyRange st0
    else if discountLocked then
      walkCheckFirst cfg.topNResults
        (fun quantity st => incCount (processQtyDiscount cfg h quantity cfg.discountMin st))
        qtyRange st0
    else if qtyLocked then
      if shouldUseSmartOrder then
        walkCheckAfter cfg.topNResults (fun p st => processQtyDiscount cfg h p.1 p.2 st)
          id priorityPairs st0
      else
        walkCheckFirst cfg.topNResults
          (fun discount st => incCount (processQtyDiscount cfg h cfg.quantityMin discount st))
          discountRange st0
    else if shouldUseSmartOrder then
      walkCheckAfter cfg.topNResults (fun p st => processQtyDiscount cfg h p.1 p.2 st)
        (progressIfDue h totalEstimate) priorityPairs st0
    else
      walkCheckFirst cfg.topNResults
        (fun quantity st =>
          discountRange.foldl
            (fun st discount =>
              progressIfDue h totalEstimate
                (incCount (processQtyDiscount cfg h quantity discount st)))
            st)
        qtyRange st0
  { st with cb := h.onProgress 1 st.cb }

/-- `results.sort((a, b) => a.score.cmp(b.score))`: JavaScript sort is
stable (ES2019), modelled by `List.mergeSort`. -/
def sortResults (l : List SimResult) : List SimResult :=
  l.mergeSort (fun a b => decide (a.score ≤ b.score))

/-- `runSimulation`: the value returned to the caller — results sorted by
score ascending, truncated to the first `topNResults`. -/
def runSimulation (cfg : Config) (h : Handlers σ) (s0 : σ) : List SimResult :=
  (sortResults (runSimulationState cfg h s0).results).take cfg.topNResults

/-- A call without observable callbacks. -/
def noHandlers : Handlers Unit := ⟨fun _ _ => (), fun _ _ => ()⟩

theorem droundInt_eval (n : ℤ) {x : ℚ} (h0 : 0 ≤ x) (h1 : (n : ℚ) ≤ x + 1 / 2)
    (h2 : x + 1 / 2 < n + 1) : droundInt x = (n : ℚ) := by
  rw [droundInt, if_pos h0, Int.floor_eq_iff.mpr ⟨h1, by exact_mod_cast h2⟩]

/-- Half-away-from-zero rounding to an integer is a nearest integer. -/
theorem droundInt_nearest (x : ℚ) (k : ℤ) : |droundInt x - x| ≤ |(k : ℚ) - x| := by
  have main : ∀ (y : ℚ) (j : ℤ), 0 ≤ y →
      |((⌊y + 1 / 2⌋ : ℤ) : ℚ) - y| ≤ |(j : ℚ) - y| := by
    intro y j _
    have h1 : ((⌊y + 1 / 2⌋ : ℤ) : ℚ) ≤ y + 1 / 2 := Int.floor_le _
    have h2 : y + 1 / 2 < ((⌊y + 1 / 2⌋ : ℤ) : ℚ) + 1 := Int.lt_floor_add_one _
    rcases le_or_lt (1 / 2) |(j : ℚ) - y| with h | h
    · have hmid : |((⌊y + 1 / 2⌋ : ℤ) : ℚ) - y| ≤ 1 / 2 := by
        rw [abs_le]
        constructor <;> linarith
      linarith
    · have habs := abs_lt.mp h
      have heq : j = ⌊y + 1 / 2⌋ := by
        have hle : j ≤ ⌊y + 1 / 2⌋ := Int.le_floor.mpr (by linarith)
        have hge : ⌊y + 1 / 2⌋ ≤ j := by
          have hq : ((⌊y + 1 / 2⌋ : ℤ) : ℚ) < (j : ℚ) + 1 := by linarith
          have : ⌊y + 1 / 2⌋ < j + 1 := by exact_mod_cast hq
          omega
        omega
      rw [heq]
  rcases le_or_lt 0 x with hx | hx
  · rw [droundInt, if_pos hx]
    exact main x k hx
  · rw [droundInt, if_neg (by linarith)]
    have := main (-x) (-k) (by linarith)
    have habs1 : |-((⌊-x + 1 / 2⌋ : ℤ) : ℚ) - x| = |((⌊-x + 1 / 2⌋ : ℤ) : ℚ) - (-x)| := by
      rw [← abs_neg]
      congr 1
      ring
    have habs2 : |(k : ℚ) - x| = |((-k : ℤ) : ℚ) - (-x)| := by
      rw [← abs_neg]
      congr 1
      push_cast
      ring
    rw [habs1, habs2]
    exact this

/-- C6, counterexample: grid rounding does not always select the nearest
grid point.  For the solved value `3000000000000000001.4` (20 significant
digits, so producible by the inverse solver) and step `3`, the 20-digit
rounding inside `value.div(step)` lands the quotient exactly on a
half-integer boundary, `round()` takes it up, and `roundToStep` returns
grid point `3000000000000000003` although `3000000000000000000` is
strictly nearer. -/
theorem c6_counterexample :
    (0 : ℚ) < 3 ∧
      roundToStep (15000000000000000007 / 5) 3 = 3000000000000000003 ∧
      |(1000000000000000000 : ℤ) * (3 : ℚ) - 15000000000000000007 / 5| <
        |roundToStep (15000000000000000007 / 5) 3 - 15000000000000000007 / 5| := by
  have hstep : roundToStep (15000000000000000007 / 5) 3 = 3000000000000000003 := by
    have hdiv : ddiv ((15000000000000000007 : ℚ) / 5) 3 = 10000000000000000005 / 10 := by
      unfold ddiv
      have := @roundSig_eval 18 10000000000000000005
        ((15000000000000000007 : ℚ) / 5 / 3) (by norm_num) (by norm_num)
        (by norm_num) (by norm_num)
      rw [this]
      norm_num
    have hround : droundInt ((10000000000000000005 : ℚ) / 10) = 1000000000000000001 := by
      have := @droundInt_eval 1000000000000000001
        ((10000000000000000005 : ℚ) / 10) (by norm_num) (by norm_num) (by norm_num)
      rw [this]
      norm_num
    unfold roundToStep
    rw [hdiv, hround]
    unfold dmul
    rw [roundSig_lit 3000000000000000003 ((1000000000000000001 : ℚ) * 3)
      (by norm_num) (by norm_num)]
    norm_num
  refine ⟨by norm_num, hstep, ?_⟩
  rw [hstep]
  norm_num
  rw [abs_of_pos (by norm_num : (0 : ℚ) < 7 / 5), abs_of_pos (by norm_num : (0 : ℚ) < 8 / 5)]
  norm_num

/-- C6 (amended): whenever the division `value.div(step)` and the final
multiplication are exact at 20 significant digits, `roundToStep` returns
the nearest step grid point; and independently of that, the candidate set
evaluated for the solved dimension is exactly `{v}` when the grid point
equals `v` and exactly `{v, rounded, rounded+step, rounded−step}` (all
under the engine's arithmetic) when it differs.  Without the exactness
hypotheses the nearest-point property can fail by double rounding. -/
theorem c6_amended (v s : ℚ) (hs : 0 < s)
    (hdivExact : ddiv v s = v / s)
    (hmulExact : dmul (droundInt (v / s)) s = droundInt (v / s) * s) :
    (∀ k : ℤ, |roundToStep v s - v| ≤ |(k : ℚ) * s - v|) ∧
      (roundToStep v s = v → candidateList v s = [v]) ∧
      (roundToStep v s ≠ v →
        candidateList v s = [v, roundToStep v s, dadd (roundToStep v s) s,
          dsub (roundToStep v s) s]) := by
  refine ⟨?_, ?_, ?_⟩
  · intro k
    have hrts : roundToStep v s = droundInt (v / s) * s := by
      unfold roundToStep
      rw [hdivExact, hmulExact]
    rw [hrts]
    have hv : v = v / s * s := by
      field_simp
    have h1 : |droundInt (v / s) * s - v| = |droundInt (v / s) - v / s| * s := by
      calc |droundInt (v / s) * s - v| = |(droundInt (v / s) - v / s) * s| := by
            rw [sub_mul, ← hv]
        _ = |droundInt (v / s) - v / s| * |s| := abs_mul _ _
        _ = |droundInt (v / s) - v / s| * s := by rw [abs_of_pos hs]
    have h2 : |(k : ℚ) * s - v| = |(k : ℚ) - v / s| * s := by
      calc |(k : ℚ) * s - v| = |((k : ℚ) - v / s) * s| := by rw [sub_mul, ← hv]
        _ = |(k : ℚ) - v / s| * |s| := abs_mul _ _
        _ = |(k : ℚ) - v / s| * s := by rw [abs_of_pos hs]
    rw [h1, h2]
    exact mul_le_mul_of_nonneg_right (droundInt_nearest (v / s) k) (le_of_lt hs)
  · intro h
    rw [candidateList, if_pos h]
  · intro h
    rw [candidateList, if_neg h]

theorem sortByDistance_pairwise (center : ℚ) (l : List ℚ) :
    (sortByDistance center l).Pairwise
      (fun a b => |dsub a center| ≤ |dsub b center|) := by
  unfold sortByDistance
  split
  · rcases l with _ | ⟨a, _ | ⟨b, t⟩⟩
    · exact List.Pairwise.nil
    · exact List.pairwise_singleton _ _
    · simp at *
  · have hs := @List.sorted_mergeSort ℚ
      (fun a b : ℚ => decide (|dsub a center| ≤ |dsub b center|))
      (fun a b c hab hbc => by
        simp only [decide_eq_true_eq] at *
        exact le_trans hab hbc)
      (fun a b => by
        simp only [Bool.or_eq_true, decide_eq_true_eq]
        exact le_total _ _)
      l
    exact hs.imp (fun h => by simpa using h)

/-- The quantity-distance keys are monotone along the whole Cartesian
enumeration of `generatePriorityOrder`. -/
theorem generatePriorityOrder_pairwiseKeys (refQty qtyMin qtyMax qtyStep dMin dMax
    dStep : ℚ) :
    (generatePriorityOrder refQty qtyMin qtyMax qtyStep dMin dMax dStep).Pairwise
      (fun p q => |dsub p.1 (qtyCenter refQty qtyMin qtyMax)| ≤
        |dsub q.1 (qtyCenter refQty qtyMin qtyMax)|) := by
  unfold generatePriorityOrder
  rw [List.pairwise_flatMap]
  constructor
  · intro a _
    refine List.pairwise_map.mpr ?_
    exact List.pairwise_iff_getElem.mpr (fun i j hi hj hij => le_refl _)
  · apply (sortByDistance_pairwise (qtyCenter refQty qtyMin qtyMax) _).imp
    intro a b hab x hx y hy
    obtain ⟨d1, _, rfl⟩ := List.mem_map.mp hx
    obtain ⟨d2, _, rfl⟩ := List.mem_map.mp hy
    exact hab

/-- C7: when the priority-ordered walk is selected, each free dimension's
candidate list is sorted by absolute distance from its centre (quantity:
the reference value clamped into range; discount: the interval midpoint,
the dimension with no natural centre), and the walk enumerates the
Cartesian product in that list order: any pair whose quantity lies
strictly closer to the quantity centre is produced before every pair with
a farther quantity. -/
theorem c7_priority_order (refQty qtyMin qtyMax qtyStep dMin dMax dStep : ℚ) :
    (sortByDistance (qtyCenter refQty qtyMin qtyMax)
        (decRange qtyMin qtyMax qtyStep)).Pairwise
      (fun a b => |dsub a (qtyCenter refQty qtyMin qtyMax)| ≤
        |dsub b (qtyCenter refQty qtyMin qtyMax)|) ∧
    (sortByDistance (discountCenter dMin dMax) (decRange dMin dMax dStep)).Pairwise
      (fun a b => |dsub a (discountCenter dMin dMax)| ≤
        |dsub b (discountCenter dMin dMax)|) ∧
    ∀ (i j : ℕ)
      (hi : i < (generatePriorityOrder refQty qtyMin qtyMax qtyStep dMin dMax
        dStep).length)
      (hj : j < (generatePriorityOrder refQty qtyMin qtyMax qtyStep dMin dMax
        dStep).length),
      |dsub ((generatePriorityOrder refQty qtyMin qtyMax qtyStep dMin dMax dStep)[i]).1
          (qtyCenter refQty qtyMin qtyMax)| <
        |dsub ((generatePriorityOrder refQty qtyMin qtyMax qtyStep dMin dMax dStep)[j]).1
          (qtyCenter refQty qtyMin qtyMax)| →
      i < j := by
  refine ⟨sortByDistance_pairwise _ _, sortByDistance_pairwise _ _, ?_⟩
  intro i j hi hj hlt
  by_contra hcon
  push_neg at hcon
  rcases eq_or_lt_of_le hcon with heq | hji
  · subst heq
    exact lt_irrefl _ hlt
  · have hmono :=
      generatePriorityOrder_pairwiseKeys refQty qtyMin qtyMax qtyStep dMin dMax dStep
    have := List.pairwise_iff_getElem.mp hmono j i hj hi hji
    exact absurd hlt (not_lt.mpr this)

theorem dadd_lit (m n k : ℤ) (x y : ℚ) (hx : x = (m : ℚ)) (hy : y = (n : ℚ))
    (hk : m + n = k) (h : |k| < 10 ^ 20) : dadd x y = (k : ℚ) := by
  subst hk
  rw [dadd, hx, hy, roundSig_lit (m + n) _ (by push_cast; ring) h]
  push_cast
  ring

theorem dsub_lit (m n k : ℤ) (x y : ℚ) (hx : x = (m : ℚ)) (hy : y = (n : ℚ))
    (hk : m - n = k) (h : |k| < 10 ^ 20) : dsub x y = (k : ℚ) := by
  subst hk
  rw [dsub, hx, hy, roundSig_lit (m - n) _ (by push_cast; ring) h]
  push_cast
  ring

theorem c7_priority_order_pairs :
    generatePriorityOrder 1 1 2 1 0 0 1 = [(1, 0), (2, 0)] := by
  have hd1 : dadd (1 : ℚ) 1 = 2 := by
    have := dadd_lit 1 1 2 1 1 (by norm_num) (by norm_num) (by norm_num) (by norm_num)
    simpa using this
  have hd2 : dadd (2 : ℚ) 1 = 3 := by
    have := dadd_lit 2 1 3 2 1 (by norm_num) (by norm_num) (by norm_num) (by norm_num)
    simpa using this
  have hd0 : dadd (0 : ℚ) 1 = 1 := by
    have := dadd_lit 0 1 1 0 1 (by norm_num) (by norm_num) (by norm_num) (by norm_num)
    simpa using this
  have hq : decRange 1 2 1 = [1, 2] := by
    unfold decRange
    rw [show (⌊((2 : ℚ) - 1) / 1⌋ + 2).toNat = 3 by norm_num; rfl]
    rw [decRangeAux, if_pos (by norm_num : (1 : ℚ) ≤ 2), hd1]
    rw [decRangeAux, if_pos (by norm_num : (2 : ℚ) ≤ 2), hd2]
    rw [decRangeAux, if_neg (by norm_num : ¬ (3 : ℚ) ≤ 2)]
  have hd : decRange 0 0 1 = [0] := by
    unfold decRange
    rw [show (⌊((0 : ℚ) - 0) / 1⌋ + 2).toNat = 2 by norm_num; rfl]
    rw [decRangeAux, if_pos (by norm_num : (0 : ℚ) ≤ 0), hd0]
    rw [decRangeAux, if_neg (by norm_num : ¬ (1 : ℚ) ≤ 0)]
  have hcenter : qtyCenter 1 1 2 = 1 := by
    unfold qtyCenter dclamp
    norm_num
  have hsub1 : dsub (1 : ℚ) 1 = 0 := by
    have := dsub_lit 1 1 0 1 1 (by norm_num) (by norm_num) (by norm_num) (by norm_num)
    simpa using this
  have hsub2 : dsub (2 : ℚ) 1 = 1 := by
    have := dsub_lit 2 1 1 2 1 (by norm_num) (by norm_num) (by norm_num) (by norm_num)
    simpa using this
  have hqs : sortByDistance (qtyCenter 1 1 2) [1, 2] = [1, 2] := by
    unfold sortByDistance
    rw [if_neg (by norm_num)]
    apply List.mergeSort_of_sorted
    refine List.pairwise_cons.mpr ⟨?_, List.pairwise_singleton _ _⟩
    intro b hb
    rw [List.mem_singleton] at hb
    subst hb
    rw [hcenter]
    simp only [decide_eq_true_eq, hsub1, hsub2]
    norm_num
  have hds : sortByDistance (discountCenter 0 0) [0] = [0] := by
    unfold sortByDistance
    rw [if_pos (by norm_num)]
  unfold generatePriorityOrder
  rw [hq, hd, hqs, hds]
  rfl

theorem c7_priority_order_witness :
    generatePriorityOrder 1 1 2 1 0 0 1 = [(1, 0), (2, 0)] ∧ (0 : ℕ) < 1 := by
  refine ⟨c7_priority_order_pairs, ?_⟩
  have hcenter : qtyCenter 1 1 2 = 1 := by
    unfold qtyCenter dclamp
    norm_num
  have hsub1 : dsub (1 : ℚ) 1 = 0 := by
    have := dsub_lit 1 1 0 1 1 (by norm_num) (by norm_num) (by norm_num) (by norm_num)
    simpa using this
  have hsub2 : dsub (2 : ℚ) 1 = 1 := by
    have := dsub_lit 2 1 1 2 1 (by norm_num) (by norm_num) (by norm_num) (by norm_num)
    simpa using this
  apply (c7_priority_order 1 1 2 1 0 0 1).2.2 0 1
    (by simp [c7_priority_order_pairs])
    (by simp [c7_priority_order_pairs])
  simp only [c7_priority_order_pairs, List.getElem_cons_zero, List.getElem_cons_succ]
  rw [hcenter]
  simp only [hsub1, hsub2]
  norm_num

theorem c6_amended_witness :
    |roundToStep 6 3 - 6| ≤ |(5 : ℤ) * (3 : ℚ) - 6| ∧ candidateList 6 3 = [6] := by
  have hdiv : ddiv (6 : ℚ) 3 = 6 / 3 := by
    unfold ddiv
    rw [roundSig_lit 2 ((6 : ℚ) / 3) (by norm_num) (by norm_num)]
  have hround : droundInt ((6 : ℚ) / 3) = 2 := by
    have := @droundInt_eval 2 ((6 : ℚ) / 3) (by norm_num) (by norm_num) (by norm_num)
    rw [this]
    norm_num
  have hmul : dmul (droundInt ((6 : ℚ) / 3)) 3 = droundInt ((6 : ℚ) / 3) * 3 := by
    rw [hround]
    unfold dmul
    rw [roundSig_lit 6 ((2 : ℚ) * 3) (by norm_num) (by norm_num)]
  have h := c6_amended 6 3 (by norm_num) hdiv hmul
  have hrts : roundToStep 6 3 = 6 := by
    unfold roundToStep
    rw [hdiv, hmul, hround]
    norm_num
  exact ⟨h.1 5, h.2.1 hrts⟩

/-- `validateTransaction` succeeds exactly on the §3 invariants (with the
subtotal computed by the engine's arithmetic). -/
theorem validateTransaction_eq_none_iff (t : Tx) :
    validateTransaction t = none ↔
      0 < t.unitPrice ∧ 0 < t.quantity ∧ 0 ≤ t.discount ∧
        t.discount < dmul t.unitPrice t.quantity := by
  constructor
  · intro h
    unfold validateTransaction at h
    split_ifs at h with h1 h2 h3 h4
    push_neg at h1 h2 h3 h4
    exact ⟨h1, h2, h3, h4⟩
  · intro ⟨ha, hb, hc, hd⟩
    unfold validateTransaction
    rw [if_neg (by linarith), if_neg (by linarith), if_neg (by linarith),
      if_neg (by linarith)]

/-- The per-result invariant of claim C3. -/
def ResultsOk (cfg : Config) (l : List SimResult) : Prop :=
  ∀ r ∈ l, validateTransaction r.transaction = none ∧
    |dsub (calculateTransactionPpn r.transaction) cfg.targetPpn| ≤ cfg.tolerance

theorem tryCandidate_resultsOk {σ : Type} (cfg : Config) (h : Handlers σ) (t : Tx)
    (st : EngineState σ) (hok : ResultsOk cfg st.results) :
    ResultsOk cfg (tryCandidate cfg h t st).results := by
  simp only [tryCandidate]
  split_ifs with hmem hvalid htol
  all_goals try exact hok
  all_goals
    intro r hr
    rcases List.mem_append.mp hr with hmem2 | hmem2
    · exact hok r hmem2
    · rw [List.mem_singleton] at hmem2
      subst hmem2
      refine ⟨by simpa using hvalid, ?_⟩
      simpa [createResult] using htol

theorem foldl_preserve {α β : Type} (P : β → Prop) (f : β → α → β)
    (hf : ∀ b a, P b → P (f b a)) :
    ∀ (l : List α) (b : β), P b → P (l.foldl f b)
  | [], _, hb => hb
  | a :: l, b, hb => foldl_preserve P f hf l (f b a) (hf b a hb)

theorem walkCheckFirst_preserve {σ : Type} {P : EngineState σ → Prop} (topN : ℕ)
    (step : ℚ → EngineState σ → EngineState σ)
    (hstep : ∀ v st, P st → P (step v st)) :
    ∀ (l : List ℚ) (st : EngineState σ), P st → P (walkCheckFirst topN step l st)
  | [], _, hst => hst
  | v :: vs, st, hst => by
    rw [walkCheckFirst]
    split
    · exact hst
    · exact walkCheckFirst_preserve topN step hstep vs _ (hstep v st hst)

theorem walkCheckAfter_preserve {σ : Type} {P : EngineState σ → Prop} (topN : ℕ)
    (step : ℚ × ℚ → EngineState σ → EngineState σ)
    (after : EngineState σ → EngineState σ)
    (hstep : ∀ p st, P st → P (incCount (step p st)))
    (hafter : ∀ st, P st → P (after st)) :
    ∀ (l : List (ℚ × ℚ)) (st : EngineState σ), P st → P (walkCheckAfter topN step after l st)
  | [], _, hst => hst
  | p :: ps, st, hst => by
    rw [walkCheckAfter]
    split
    · exact hstep p st hst
    · exact walkCheckAfter_preserve topN step after hstep hafter ps _
        (hafter _ (hstep p st hst))

/-- Any state predicate preserved by the three `process*` functions, by
`incCount`, by progress emission and by callback updates is an invariant
of the whole `runSimulationState` walk. -/
theorem runSimulationState_preserve {σ : Type} (P : EngineState σ → Prop)
    (cfg : Config) (h : Handlers σ) (s0 : σ)
    (hinit : P (initState s0))
    (hPPD : ∀ up d st, P st → P (processPriceDiscount cfg h up d st))
    (hPQD : ∀ q d st, P st → P (processQtyDiscount cfg h q d st))
    (hPQU : ∀ q up st, P st → P (processQtyUnitPrice cfg h q up st))
    (hInc : ∀ st, P st → P (incCount st))
    (hProg : ∀ est st, P st → P (progressIfDue h est st))
    (hCb : ∀ (st : EngineState σ) (s' : σ), P st → P { st with cb := s' }) :
    P (runSimulationState cfg h s0) := by
  unfold runSimulationState
  apply hCb
  split
  · exact hPPD _ _ _ hinit
  · split
    · exact walkCheckFirst_preserve _ _
        (fun v st hst => hInc _ (hPQU _ _ _ hst)) _ _ hinit
    · split
      · exact walkCheckFirst_preserve _ _
          (fun v st hst => hInc _ (hPQD _ _ _ hst)) _ _ hinit
      · split
        · split
          · exact walkCheckAfter_preserve _ _ _
              (fun p st hst => hInc _ (hPQD _ _ _ hst)) (fun st hst => hst) _ _ hinit
          · exact walkCheckFirst_preserve _ _
              (fun v st hst => hInc _ (hPQD _ _ _ hst)) _ _ hinit
        · split
          · exact walkCheckAfter_preserve _ _ _
              (fun p st hst => hInc _ (hPQD _ _ _ hst))
              (fun st hst => hProg _ _ hst) _ _ hinit
          · exact walkCheckFirst_preserve _ _
              (fun v st hst => foldl_preserve P _
                (fun st d hst => hProg _ _ (hInc _ (hPQD _ _ _ hst))) _ _ hst)
              _ _ hinit

theorem processQtyDiscount_resultsOk {σ : Type} (cfg : Config) (h : Handlers σ)
    (q d : ℚ) (st : EngineState σ) (hok : ResultsOk cfg st.results) :
    ResultsOk cfg (processQtyDiscount cfg h q d st).results := by
  unfold processQtyDiscount
  apply foldl_preserve (fun st : EngineState σ => ResultsOk cfg st.results)
  · intro st v hst
    split
    · exact hst
    · exact tryCandidate_resultsOk cfg h _ st hst
  · exact hok

theorem processPriceDiscount_resultsOk {σ : Type} (cfg : Config) (h : Handlers σ)
    (up d : ℚ) (st : EngineState σ) (hok : ResultsOk cfg st.results) :
    ResultsOk cfg (processPriceDiscount cfg h up d st).results := by
  unfold processPriceDiscount
  apply foldl_preserve (fun st : EngineState σ => ResultsOk cfg st.results)
  · intro st v hst
    split
    · exact hst
    · exact tryCandidate_resultsOk cfg h _ st hst
  · exact hok

theorem processQtyUnitPrice_resultsOk {σ : Type} (cfg : Config) (h : Handlers σ)
    (q up : ℚ) (st : EngineState σ) (hok : ResultsOk cfg st.results) :
    ResultsOk cfg (processQtyUnitPrice cfg h q up st).results := by
  unfold processQtyUnitPrice
  apply foldl_preserve (fun st : EngineState σ => ResultsOk cfg st.results)
  · intro st v hst
    split
    · exact hst
    · exact tryCandidate_resultsOk cfg h _ st hst
  · exact hok

theorem runSimulationState_resultsOk {σ : Type} (cfg : Config) (h : Handlers σ)
    (s0 : σ) : ResultsOk cfg (runSimulationState cfg h s0).results := by
  apply runSimulationState_preserve (fun st : EngineState σ => ResultsOk cfg st.results)
  · intro r hr
    exact absurd hr (List.not_mem_nil r)
  · exact fun up d st hst => processPriceDiscount_resultsOk cfg h up d st hst
  · exact fun q d st hst => processQtyDiscount_resultsOk cfg h q d st hst
  · exact fun q up st hst => processQtyUnitPrice_resultsOk cfg h q up st hst
  · exact fun st hst => hst
  · intro est st hst
    unfold progressIfDue
    split
    · exact hst
    · exact hst
  · exact fun st s' hst => hst

/-- C3: for every configuration accepted by validation, every result in
the list returned by `runSimulation` has a transaction with positive unit
price and quantity and a non-negative discount strictly below the
subtotal, and its evaluated PPN lies within `tolerance` of `targetPpn`. -/
theorem c3_results_within_tolerance {σ : Type} (cfg : Config) (h : Handlers σ)
    (s0 : σ) (_hv : validateConfig cfg = none) :
    ∀ r ∈ runSimulation cfg h s0,
      0 < r.transaction.unitPrice ∧ 0 < r.transaction.quantity ∧
        0 ≤ r.transaction.discount ∧
        r.transaction.discount < dmul r.transaction.unitPrice r.transaction.quantity ∧
        |dsub (calculateTransactionPpn r.transaction) cfg.targetPpn| ≤ cfg.tolerance := by
  intro r hr
  have hr1 : r ∈ sortResults (runSimulationState cfg h s0).results :=
    List.mem_of_mem_take hr
  have hr2 : r ∈ (runSimulationState cfg h s0).results := by
    simpa [sortResults] using hr1
  obtain ⟨hvt, htol⟩ := runSimulationState_resultsOk cfg h s0 r hr2
  obtain ⟨h1, h2, h3, h4⟩ := (validateTransaction_eq_none_iff _).mp hvt
  exact ⟨h1, h2, h3, h4, htol⟩

theorem dmul_lit (m n k : ℤ) (x y : ℚ) (hx : x = (m : ℚ)) (hy : y = (n : ℚ))
    (hk : m * n = k) (h : |k| < 10 ^ 20) : dmul x y = (k : ℚ) := by
  subst hk
  rw [dmul, hx, hy, roundSig_lit (m * n) _ (by push_cast; ring) h]
  push_cast
  ring

theorem ddiv_lit (n : ℤ) (x y : ℚ) (hxy : x / y = (n : ℚ)) (h : |n| < 10 ^ 20) :
    ddiv x y = (n : ℚ) := by
  rw [ddiv, hxy, roundSig_intCast n h]

/-- A small concrete configuration used to instantiate several theorems:
the reference transaction `⟨100, 1, 0⟩`, target PPN `11`, zero tolerance,
free price in `[1, 1000]`, free discount in `[0, 1]`, free quantity in
`[1, 2]`, all steps `1`, `topN = 1`. -/
def cfgW : Config :=
  { referenceTransaction := ⟨100, 1, 0⟩
    targetPpn := 11
    tolerance := 0
    priceMin := 1
    priceMax := 1000
    discountMin := 0
    discountMax := 1
    quantityMin := 1
    quantityMax := 2
    quantityStep := 1
    priceStep := 1
    discountStep := 1
    alpha := 1
    beta := 1
    topNResults := 1 }

theorem dmul_100_1 : dmul (100 : ℚ) 1 = 100 := by
  have := dmul_lit 100 1 100 100 1 (by norm_num) (by norm_num) (by norm_num) (by norm_num)
  simpa using this

theorem validateTransaction_refW : validateTransaction (⟨100, 1, 0⟩ : Tx) = none := by
  unfold validateTransaction
  simp only
  rw [if_neg (by norm_num), if_neg (by norm_num), if_neg (by norm_num),
    if_neg (by rw [dmul_100_1]; norm_num)]

theorem cfgW_estimate : estimateCombinations cfgW = 4 := by
  have hs1 : dsub (1 : ℚ) 0 = 1 := by
    have := dsub_lit 1 0 1 1 0 (by norm_num) (by norm_num) (by norm_num) (by norm_num)
    simpa using this
  have hs2 : dsub (2 : ℚ) 1 = 1 := by
    have := dsub_lit 2 1 1 2 1 (by norm_num) (by norm_num) (by norm_num) (by norm_num)
    simpa using this
  have hd1 : ddiv (1 : ℚ) 1 = 1 := by
    have := ddiv_lit 1 1 1 (by norm_num) (by norm_num)
    simpa using this
  unfold estimateCombinations
  simp only [cfgW]
  rw [hs1, hs2, hd1]
  norm_num

theorem cfgW_validate : validateConfig cfgW = none := by
  unfold validateConfig
  rw [show cfgW.referenceTransaction = (⟨100, 1, 0⟩ : Tx) from rfl, validateTransaction_refW]
  rw [if_neg (by simp only [cfgW]; norm_num), if_neg (by simp only [cfgW]; norm_num),
    if_neg (by simp only [cfgW]; norm_num), if_neg (by simp only [cfgW]; norm_num),
    if_neg (by simp only [cfgW]; norm_num), if_neg (by rw [cfgW_estimate]; norm_num)]

theorem c3_results_within_tolerance_witness :
    validateConfig cfgW = none ∧
      ∀ r ∈ runSimulation cfgW noHandlers (),
        0 < r.transaction.unitPrice ∧ 0 < r.transaction.quantity ∧
          0 ≤ r.transaction.discount ∧
          r.transaction.discount < dmul r.transaction.unitPrice r.transaction.quantity ∧
          |dsub (calculateTransactionPpn r.transaction) cfgW.targetPpn| ≤ cfgW.tolerance :=
  ⟨cfgW_validate, c3_results_within_tolerance cfgW noHandlers () cfgW_validate⟩

/-- `tryCandidate` never touches the trace and never decreases the count
of perfect matches. -/
theorem tryCandidate_traceCount {σ : Type} (cfg : Config) (h : Handlers σ) (t : Tx)
    (st : EngineState σ) :
    (tryCandidate cfg h t st).trace = st.trace ∧
      st.perfectCount ≤ (tryCandidate cfg h t st).perfectCount := by
  simp only [tryCandidate]
  split_ifs <;> refine ⟨rfl, ?_⟩ <;> first | exact le_rfl | exact Nat.le_succ _

/-- A fold whose steps each either skip or run `tryCandidate` keeps the
trace and never decreases the perfect-match count. -/
theorem foldl_guard_tryCandidate {σ : Type} (cfg : Config) (h : Handlers σ)
    (f : EngineState σ → ℚ → EngineState σ)
    (hf : ∀ s v, f s v = s ∨ ∃ t, f s v = tryCandidate cfg h t s)
    (l : List ℚ) (s : EngineState σ) :
    (l.foldl f s).trace = s.trace ∧ s.perfectCount ≤ (l.foldl f s).perfectCount := by
  induction l generalizing s with
  | nil => exact ⟨rfl, le_rfl⟩
  | cons v vs ih =>
    have h1 : (f s v).trace = s.trace ∧ s.perfectCount ≤ (f s v).perfectCount := by
      rcases hf s v with he | ⟨t, he⟩
      · rw [he]; exact ⟨rfl, le_rfl⟩
      · rw [he]; exact tryCandidate_traceCount cfg h t s
    have h2 := ih (f s v)
    rw [List.foldl_cons]
    exact ⟨h2.1.trans h1.1, h1.2.trans h2.2⟩

/-- Each `processQtyDiscount` call appends exactly one trace entry — its
loop pair tagged with the perfect-match count right after the call — and
never decreases that count. -/
theorem processQtyDiscount_spec {σ : Type} (cfg : Config) (h : Handlers σ)
    (q d : ℚ) (st : EngineState σ) :
    (processQtyDiscount cfg h q d st).trace =
        st.trace ++ [((q, d), (processQtyDiscount cfg h q d st).perfectCount)] ∧
      st.perfectCount ≤ (processQtyDiscount cfg h q d st).perfectCount := by
  have key := foldl_guard_tryCandidate cfg h
    (fun s up => if up < cfg.priceMin ∨ cfg.priceMax < up ∨ up ≤ 0 then s
      else tryCandidate cfg h ⟨up, q, d⟩ s)
    (by
      intro s up
      dsimp only
      split_ifs
      · exact Or.inl rfl
      · exact Or.inr ⟨_, rfl⟩)
    (candidateList (calculateRequiredUnitPrice cfg.targetPpn q d) cfg.priceStep) st
  exact ⟨by simp only [processQtyDiscount]; rw [key.1], key.2⟩

/-- Trace shape of `processPriceDiscount` (same argument as for
`processQtyDiscount`). -/
theorem processPriceDiscount_spec {σ : Type} (cfg : Config) (h : Handlers σ)
    (up d : ℚ) (st : EngineState σ) :
    (processPriceDiscount cfg h up d st).trace =
        st.trace ++ [((up, d), (processPriceDiscount cfg h up d st).perfectCount)] ∧
      st.perfectCount ≤ (processPriceDiscount cfg h up d st).perfectCount := by
  have key := foldl_guard_tryCandidate cfg h
    (fun s q => if q < cfg.quantityMin ∨ cfg.quantityMax < q ∨ q ≤ 0 then s
      else tryCandidate cfg h ⟨up, q, d⟩ s)
    (by
      intro s q
      dsimp only
      split_ifs
      · exact Or.inl rfl
      · exact Or.inr ⟨_, rfl⟩)
    (candidateList (calculateRequiredQuantity cfg.targetPpn up d) cfg.quantityStep) st
  exact ⟨by simp only [processPriceDiscount]; rw [key.1], key.2⟩

/-- Trace shape of `processQtyUnitPrice` (same argument as for
`processQtyDiscount`). -/
theorem processQtyUnitPrice_spec {σ : Type} (cfg : Config) (h : Handlers σ)
    (q up : ℚ) (st : EngineState σ) :
    (processQtyUnitPrice cfg h q up st).trace =
        st.trace ++ [((q, up), (processQtyUnitPrice cfg h q up st).perfectCount)] ∧
      st.perfectCount ≤ (processQtyUnitPrice cfg h q up st).perfectCount := by
  have key := foldl_guard_tryCandidate cfg h
    (fun s d => if d < cfg.discountMin ∨ cfg.discountMax < d then s
      else tryCandidate cfg h ⟨up, q, d⟩ s)
    (by
      intro s d
      dsimp only
      split_ifs
      · exact Or.inl rfl
      · exact Or.inr ⟨_, rfl⟩)
    (candidateList (calculateRequiredDiscount cfg.targetPpn up q) cfg.discountStep) st
  exact ⟨by simp only [processQtyUnitPrice]; rw [key.1], key.2⟩

/-- The strategy dispatch of `runSimulation` falls through to the plain
nested quantity/discount loops exactly when no dimension is locked and the
estimated search space is at most 5000. -/
def usesFallback (cfg : Config) : Prop :=
  ¬cfg.priceMin = cfg.priceMax ∧ ¬cfg.discountMin = cfg.discountMax ∧
    ¬cfg.quantityMin = cfg.quantityMax ∧ ¬5000 < estimateCombinations cfg

/-- Row-level early termination read off the processing trace: an entry
whose recorded perfect-match count has reached `topN` is only ever
followed by entries with the same outer-loop (first) component. -/
def RowStop (topN : ℕ) (tr : List ((ℚ × ℚ) × ℕ)) : Prop :=
  tr.Pairwise (fun a b => topN ≤ a.2 → b.1.1 = a.1.1)

/-- Strict early termination read off the processing trace: every entry
that is followed by another records a perfect-match count below `topN`. -/
def StrictStop (topN : ℕ) (tr : List ((ℚ × ℚ) × ℕ)) : Prop :=
  tr.Pairwise (fun a _ => a.2 < topN)

/-- Strict early termination implies the row-level property. -/
theorem strictStop_rowStop {topN : ℕ} {tr : List ((ℚ × ℚ) × ℕ)}
    (h : StrictStop topN tr) : RowStop topN tr :=
  h.imp (fun hab hle => absurd hle (by omega))

/-- In a strictly stopped trace whose last entry is also below `topN`,
every entry is below `topN`. -/
theorem strictStop_all {topN : ℕ} : ∀ (tr : List ((ℚ × ℚ) × ℕ)), StrictStop topN tr →
    (∀ e, tr.getLast? = some e → e.2 < topN) → ∀ a ∈ tr, a.2 < topN
  | [], _, _, a, ha => absurd ha (List.not_mem_nil a)
  | [x], _, h2, a, ha => by
    rw [List.mem_singleton] at ha
    subst ha
    exact h2 a rfl
  | x :: y :: tl, h1, h2, a, ha => by
    rcases List.mem_cons.mp ha with rfl | hmem
    · exact (List.pairwise_cons.mp h1).1 y (List.mem_cons_self y tl)
    · exact strictStop_all (y :: tl) (List.pairwise_cons.mp h1).2
        (fun e he => h2 e (by rw [List.getLast?_cons_cons]; exact he)) a hmem

/-- A pointwise property of a list's entries holds pairwise when the
relation ignores its second argument. -/
theorem pairwise_const_all {α : Type} {P : α → Prop} {l : List α}
    (h : ∀ a ∈ l, P a) : l.Pairwise (fun a _ => P a) := by
  induction l with
  | nil => exact List.Pairwise.nil
  | cons x tl ih =>
    exact List.pairwise_cons.mpr ⟨fun b _ => h x (List.mem_cons_self x tl),
      ih fun a ha => h a (List.mem_cons_of_mem x ha)⟩

/-- A list all of whose entries share the first component satisfies the
row-stop relation pairwise. -/
theorem pairwise_rowstop_of_const {topN : ℕ} {v : ℚ} {l : List ((ℚ × ℚ) × ℕ)}
    (h : ∀ e ∈ l, e.1.1 = v) :
    l.Pairwise (fun a b => topN ≤ a.2 → b.1.1 = a.1.1) := by
  induction l with
  | nil => exact List.Pairwise.nil
  | cons x tl ih =>
    refine List.pairwise_cons.mpr ⟨fun b hb _ => ?_,
      ih fun a ha => h a (List.mem_cons_of_mem x ha)⟩
    rw [h b (List.mem_cons_of_mem x hb), h x (List.mem_cons_self x tl)]

/-- A check-first walk whose steps each append exactly one entry tagged
with the post-step perfect count preserves strict early termination,
together with the invariant that the last trace entry records the current
perfect count. -/
theorem walkCheckFirst_strictStop {σ : Type} (topN : ℕ)
    (step : ℚ → EngineState σ → EngineState σ)
    (hstep : ∀ v s, ∃ pr, (step v s).trace = s.trace ++ [(pr, (step v s).perfectCount)])
    (l : List ℚ) (st : EngineState σ)
    (h1 : StrictStop topN st.trace)
    (h2 : ∀ e, st.trace.getLast? = some e → e.2 = st.perfectCount) :
    StrictStop topN (walkCheckFirst topN step l st).trace ∧
      ∀ e, (walkCheckFirst topN step l st).trace.getLast? = some e →
        e.2 = (walkCheckFirst topN step l st).perfectCount := by
  induction l generalizing st with
  | nil => exact ⟨h1, h2⟩
  | cons v vs ih =>
    rw [walkCheckFirst]
    split_ifs with hstop
    · exact ⟨h1, h2⟩
    · obtain ⟨pr, hpr⟩ := hstep v st
      have hall : ∀ a ∈ st.trace, a.2 < topN :=
        strictStop_all st.trace h1 (fun e he => by rw [h2 e he]; omega)
      refine ih (step v st) ?_ ?_
      · unfold StrictStop
        rw [hpr]
        exact List.pairwise_append.mpr
          ⟨h1, List.pairwise_singleton _ _, fun a ha b _ => hall a ha⟩
      · intro e he
        rw [hpr, List.getLast?_concat] at he
        obtain rfl := Option.some.inj he
        rfl

/-- A check-after walk whose steps each append exactly one entry tagged
with the post-step perfect count turns an all-below-`topN` trace into a
strictly stopped one. -/
theorem walkCheckAfter_strictStop {σ : Type} (topN : ℕ)
    (step : ℚ × ℚ → EngineState σ → EngineState σ)
    (after : EngineState σ → EngineState σ)
    (hstep : ∀ p s, ∃ pr, (step p s).trace = s.trace ++ [(pr, (step p s).perfectCount)])
    (hafter : ∀ s : EngineState σ,
      (after s).trace = s.trace ∧ (after s).perfectCount = s.perfectCount)
    (l : List (ℚ × ℚ)) (st : EngineState σ)
    (hall : ∀ a ∈ st.trace, a.2 < topN) :
    StrictStop topN (walkCheckAfter topN step after l st).trace := by
  induction l generalizing st with
  | nil =>
    unfold StrictStop
    exact pairwise_const_all hall
  | cons p ps ih =>
    rw [walkCheckAfter]
    obtain ⟨pr, hpr⟩ := hstep p st
    have htr1 : (incCount (step p st)).trace =
        st.trace ++ [(pr, (incCount (step p st)).perfectCount)] := hpr
    split_ifs with hstop
    · unfold StrictStop
      rw [htr1]
      exact List.pairwise_append.mpr
        ⟨pairwise_const_all hall, List.pairwise_singleton _ _, fun a ha b _ => hall a ha⟩
    · refine ih (after (incCount (step p st))) ?_
      intro a ha
      rw [(hafter _).1, htr1] at ha
      rcases List.mem_append.mp ha with hmem | hmem
      · exact hall a hmem
      · rw [List.mem_singleton] at hmem
        subst hmem
        omega

/-- A check-first walk whose steps append whole rows of same-quantity
entries, each bounded by the post-step perfect count, preserves the
row-stop property together with the bound of every recorded count by the
current perfect count. -/
theorem walkCheckFirst_rowStop {σ : Type} (topN : ℕ)
    (step : ℚ → EngineState σ → EngineState σ)
    (hstep : ∀ v s, ∃ new, (step v s).trace = s.trace ++ new ∧
      (∀ e ∈ new, e.1.1 = v) ∧ s.perfectCount ≤ (step v s).perfectCount ∧
      ∀ e ∈ new, e.2 ≤ (step v s).perfectCount)
    (l : List ℚ) (st : EngineState σ)
    (h1 : RowStop topN st.trace) (h2 : ∀ e ∈ st.trace, e.2 ≤ st.perfectCount) :
    RowStop topN (walkCheckFirst topN step l st).trace ∧
      ∀ e ∈ (walkCheckFirst topN step l st).trace,
        e.2 ≤ (walkCheckFirst topN step l st).perfectCount := by
  induction l generalizing st with
  | nil => exact ⟨h1, h2⟩
  | cons v vs ih =>
    rw [walkCheckFirst]
    split_ifs with hstop
    · exact ⟨h1, h2⟩
    · obtain ⟨new, hnew, hfst, hmono, hbound⟩ := hstep v st
      refine ih (step v st) ?_ ?_
      · unfold RowStop
        rw [hnew]
        refine List.pairwise_append.mpr ⟨h1, pairwise_rowstop_of_const hfst, ?_⟩
        intro a ha b _ hle
        have := h2 a ha
        omega
      · intro e he
        rw [hnew] at he
        rcases List.mem_append.mp he with hmem | hmem
        · exact (h2 e hmem).trans hmono
        · exact hbound e hmem

/-- One row of the fallback nested loop: fold the discount range at a fixed
quantity `v`.  It appends only entries of quantity `v`, never decreases the
perfect count, and every appended entry's recorded count is bounded by the
final perfect count. -/
theorem fallbackRow_spec {σ : Type} (cfg : Config) (h : Handlers σ) (est : ℤ) (v : ℚ)
    (ds : List ℚ) (st : EngineState σ) :
    ∃ new,
      (ds.foldl (fun s d =>
          progressIfDue h est (incCount (processQtyDiscount cfg h v d s))) st).trace =
          st.trace ++ new ∧
        (∀ e ∈ new, e.1.1 = v) ∧
        st.perfectCount ≤ (ds.foldl (fun s d =>
          progressIfDue h est (incCount (processQtyDiscount cfg h v d s))) st).perfectCount ∧
        ∀ e ∈ new, e.2 ≤ (ds.foldl (fun s d =>
          progressIfDue h est (incCount (processQtyDiscount cfg h v d s))) st).perfectCount := by
  induction ds generalizing st with
  | nil => exact ⟨[], by simp, by simp, le_rfl, by simp⟩
  | cons d ds ih =>
    simp only [List.foldl_cons]
    have hp := processQtyDiscount_spec cfg h v d st
    have hpre : ∀ s : EngineState σ,
        (progressIfDue h est (incCount s)).trace = s.trace ∧
          (progressIfDue h est (incCount s)).perfectCount = s.perfectCount := by
      intro s
      unfold progressIfDue incCount
      split_ifs <;> exact ⟨rfl, rfl⟩
    obtain ⟨new, hnew, hfst, hmono, hbound⟩ :=
      ih (progressIfDue h est (incCount (processQtyDiscount cfg h v d st)))
    rw [(hpre (processQtyDiscount cfg h v d st)).2] at hmono
    refine ⟨((v, d), (processQtyDiscount cfg h v d st).perfectCount) :: new, ?_, ?_, ?_, ?_⟩
    · rw [hnew, (hpre _).1, hp.1, List.append_assoc]
      rfl
    · intro e he
      rcases List.mem_cons.mp he with rfl | hmem
      · rfl
      · exact hfst e hmem
    · exact hp.2.trans hmono
    · intro e he
      rcases List.mem_cons.mp he with rfl | hmem
      · exact hmono
      · exact hbound e hmem

/-- C8 (amended): in every iteration strategy, once the recorded count of
exact matches reaches `topNResults` at some processed combination, every
combination processed afterwards — there are none except in the
small-search-space fallback strategy, which still finishes the remaining
discounts of the current quantity row — shares that combination's
outer-loop value (`RowStop`); and outside the fallback strategy nothing at
all is processed after the count is reached (`StrictStop`). -/
theorem c8_early_termination {σ : Type} (cfg : Config) (h : Handlers σ) (s0 : σ) :
    RowStop cfg.topNResults (runSimulationState cfg h s0).trace ∧
      (¬usesFallback cfg →
        StrictStop cfg.topNResults (runSimulationState cfg h s0).trace) := by
  have hnil1 : StrictStop cfg.topNResults (initState s0 : EngineState σ).trace :=
    List.Pairwise.nil
  have hnil2 : ∀ e, (initState s0 : EngineState σ).trace.getLast? = some e →
      e.2 = (initState s0 : EngineState σ).perfectCount := fun e he => by cases he
  have hnil3 : ∀ a ∈ (initState s0 : EngineState σ).trace, a.2 < cfg.topNResults :=
    fun a ha => absurd ha (List.not_mem_nil a)
  have hnil4 : RowStop cfg.topNResults (initState s0 : EngineState σ).trace :=
    List.Pairwise.nil
  have hnil5 : ∀ e ∈ (initState s0 : EngineState σ).trace,
      e.2 ≤ (initState s0 : EngineState σ).perfectCount :=
    fun a ha => absurd ha (List.not_mem_nil a)
  simp only [runSimulationState]
  by_cases hPD : cfg.priceMin = cfg.priceMax ∧ cfg.discountMin = cfg.discountMax
  · rw [if_pos hPD]
    have hspec := processPriceDiscount_spec cfg h cfg.priceMin cfg.discountMin (initState s0)
    have hstrict : StrictStop cfg.topNResults
        (processPriceDiscount cfg h cfg.priceMin cfg.discountMin (initState s0)).trace := by
      unfold StrictStop
      rw [hspec.1]
      exact List.pairwise_append.mpr ⟨List.Pairwise.nil, List.pairwise_singleton _ _,
        fun a ha => absurd ha (List.not_mem_nil a)⟩
    exact ⟨strictStop_rowStop hstrict, fun _ => hstrict⟩
  · rw [if_neg hPD]
    by_cases hPL : cfg.priceMin = cfg.priceMax
    · rw [if_pos hPL]
      have hkey := walkCheckFirst_strictStop cfg.topNResults
        (fun quantity st => incCount (processQtyUnitPrice cfg h quantity cfg.priceMin st))
        (fun v s => ⟨(v, cfg.priceMin), (processQtyUnitPrice_spec cfg h v cfg.priceMin s).1⟩)
        (decRange cfg.quantityMin cfg.quantityMax cfg.quantityStep) (initState s0)
        hnil1 hnil2
      exact ⟨strictStop_rowStop hkey.1, fun _ => hkey.1⟩
    · rw [if_neg hPL]
      by_cases hDL : cfg.discountMin = cfg.discountMax
      · rw [if_pos hDL]
        have hkey := walkCheckFirst_strictStop cfg.topNResults
          (fun quantity st => incCount (processQtyDiscount cfg h quantity cfg.discountMin st))
          (fun v s => ⟨(v, cfg.discountMin), (processQtyDiscount_spec cfg h v cfg.discountMin s).1⟩)
          (decRange cfg.quantityMin cfg.quantityMax cfg.quantityStep) (initState s0)
          hnil1 hnil2
        exact ⟨strictStop_rowStop hkey.1, fun _ => hkey.1⟩
      · rw [if_neg hDL]
        by_cases hQL : cfg.quantityMin = cfg.quantityMax
        · rw [if_pos hQL]
          by_cases hSM : 5000 < estimateCombinations cfg
          · rw [if_pos hSM]
            have hkey := walkCheckAfter_strictStop cfg.topNResults
              (fun p st => processQtyDiscount cfg h p.1 p.2 st) id
              (fun p s => ⟨(p.1, p.2), (processQtyDiscount_spec cfg h p.1 p.2 s).1⟩)
              (fun s => ⟨rfl, rfl⟩)
              (generatePriorityOrder cfg.referenceTransaction.quantity cfg.quantityMin
                cfg.quantityMax cfg.quantityStep cfg.discountMin cfg.discountMax
                cfg.discountStep)
              (initState s0) hnil3
            exact ⟨strictStop_rowStop hkey, fun _ => hkey⟩
          · rw [if_neg hSM]
            have hkey := walkCheckFirst_strictStop cfg.topNResults
              (fun discount st => incCount (processQtyDiscount cfg h cfg.quantityMin discount st))
              (fun v s => ⟨(cfg.quantityMin, v), (processQtyDiscount_spec cfg h cfg.quantityMin v s).1⟩)
              (decRange cfg.discountMin cfg.discountMax cfg.discountStep) (initState s0)
              hnil1 hnil2
            exact ⟨strictStop_rowStop hkey.1, fun _ => hkey.1⟩
        · rw [if_neg hQL]
          by_cases hSM : 5000 < estimateCombinations cfg
          · rw [if_pos hSM]
            have hkey := walkCheckAfter_strictStop cfg.topNResults
              (fun p st => processQtyDiscount cfg h p.1 p.2 st)
              (progressIfDue h (estimateCombinations cfg))
              (fun p s => ⟨(p.1, p.2), (processQtyDiscount_spec cfg h p.1 p.2 s).1⟩)
              (fun s => by unfold progressIfDue; split_ifs <;> exact ⟨rfl, rfl⟩)
              (generatePriorityOrder cfg.referenceTransaction.quantity cfg.quantityMin
                cfg.quantityMax cfg.quantityStep cfg.discountMin cfg.discountMax
                cfg.discountStep)
              (initState s0) hnil3
            exact ⟨strictStop_rowStop hkey, fun _ => hkey⟩
          · rw [if_neg hSM]
            have hkey := walkCheckFirst_rowStop cfg.topNResults
              (fun quantity st =>
                (decRange cfg.discountMin cfg.discountMax cfg.discountStep).foldl
                  (fun st discount =>
                    progressIfDue h (estimateCombinations cfg)
                      (incCount (processQtyDiscount cfg h quantity discount st)))
                  st)
              (fun v s => fallbackRow_spec cfg h (estimateCombinations cfg) v
                (decRange cfg.discountMin cfg.discountMax cfg.discountStep) s)
              (decRange cfg.quantityMin cfg.quantityMax cfg.quantityStep) (initState s0)
              hnil4 hnil5
            exact ⟨hkey.1, fun hnf => absurd ⟨hPL, hDL, hQL, hSM⟩ hnf⟩

/-- Evaluation of `toFixed(2)` on a nonnegative integer value. -/
theorem round2_intCast (n : ℤ) (hn : 0 ≤ (n : ℚ)) : round2 (n : ℚ) = (n : ℚ) := by
  rw [round2, if_pos hn]
  have hfl : (⌊100 * (n : ℚ) + 1 / 2⌋ : ℤ) = 100 * n :=
    Int.floor_eq_iff.mpr ⟨by push_cast; linarith, by push_cast; linarith⟩
  rw [hfl]
  push_cast
  ring

theorem round2_zero : round2 (0 : ℚ) = 0 := by
  have := round2_intCast 0 (by norm_num)
  simpa using this

theorem round2_one : round2 (1 : ℚ) = 1 := by
  have := round2_intCast 1 (by norm_num)
  simpa using this

theorem round2_100 : round2 (100 : ℚ) = 100 := by
  have := round2_intCast 100 (by norm_num)
  simpa using this

theorem round2_101 : round2 (101 : ℚ) = 101 := by
  have := round2_intCast 101 (by norm_num)
  simpa using this

/-- The dedup key of the candidate `(100, 1, 0)`. -/
theorem keyW1 : createTransactionKey 100 1 0 = ((100, false), 1, (0, false)) := by
  unfold createTransactionKey
  simp only [Prod.mk.injEq]
  refine ⟨⟨round2_100, ?_⟩, trivial, round2_zero, ?_⟩
  · exact decide_eq_false fun hc => absurd hc.1 (by norm_num)
  · exact decide_eq_false fun hc => absurd hc.1 (by norm_num)

/-- The dedup key of the candidate `(101, 1, 1)`. -/
theorem keyW2 : createTransactionKey 101 1 1 = ((101, false), 1, (1, false)) := by
  unfold createTransactionKey
  simp only [Prod.mk.injEq]
  refine ⟨⟨round2_101, ?_⟩, trivial, round2_one, ?_⟩
  · exact decide_eq_false fun hc => absurd hc.1 (by norm_num)
  · exact decide_eq_false fun hc => absurd hc.1 (by norm_num)

theorem ddiv_11_rate : ddiv (11 : ℚ) PPN_RATE = 100 := by
  have := ddiv_lit 100 11 PPN_RATE
    (by show (11 : ℚ) / (11 / 100) = ((100 : ℤ) : ℚ); norm_num) (by norm_num)
  simpa using this

theorem dadd_100_0 : dadd (100 : ℚ) 0 = 100 := by
  have := dadd_lit 100 0 100 100 0 (by norm_num) (by norm_num) (by norm_num) (by norm_num)
  simpa using this

theorem dadd_100_1 : dadd (100 : ℚ) 1 = 101 := by
  have := dadd_lit 100 1 101 100 1 (by norm_num) (by norm_num) (by norm_num) (by norm_num)
  simpa using this

theorem ddiv_100_1 : ddiv (100 : ℚ) 1 = 100 := by
  have := ddiv_lit 100 100 1 (by norm_num) (by norm_num)
  simpa using this

theorem ddiv_101_1 : ddiv (101 : ℚ) 1 = 101 := by
  have := ddiv_lit 101 101 1 (by norm_num) (by norm_num)
  simpa using this

theorem dmul_101_1 : dmul (101 : ℚ) 1 = 101 := by
  have := dmul_lit 101 1 101 101 1 (by norm_num) (by norm_num) (by norm_num) (by norm_num)
  simpa using this

theorem dsub_100_0 : dsub (100 : ℚ) 0 = 100 := by
  have := dsub_lit 100 0 100 100 0 (by norm_num) (by norm_num) (by norm_num) (by norm_num)
  simpa using this

theorem dsub_101_1 : dsub (101 : ℚ) 1 = 100 := by
  have := dsub_lit 101 1 100 101 1 (by norm_num) (by norm_num) (by norm_num) (by norm_num)
  simpa using this

theorem dsub_11_11 : dsub (11 : ℚ) 11 = 0 := by
  rw [dsub, show (11 : ℚ) - 11 = 0 by norm_num, roundSig_zero]

theorem dadd_0_1 : dadd (0 : ℚ) 1 = 1 := by
  have := dadd_lit 0 1 1 0 1 (by norm_num) (by norm_num) (by norm_num) (by norm_num)
  simpa using this

theorem dadd_1_1 : dadd (1 : ℚ) 1 = 2 := by
  have := dadd_lit 1 1 2 1 1 (by norm_num) (by norm_num) (by norm_num) (by norm_num)
  simpa using this

theorem dadd_2_1 : dadd (2 : ℚ) 1 = 3 := by
  have := dadd_lit 2 1 3 2 1 (by norm_num) (by norm_num) (by norm_num) (by norm_num)
  simpa using this

/-- The quantity loop of `cfgW` runs over `[1, 2]`. -/
theorem decRange_1_2_1 : decRange 1 2 1 = [1, 2] := by
  unfold decRange
  rw [show (⌊((2 : ℚ) - 1) / 1⌋ + 2).toNat = 3 by norm_num; rfl]
  rw [decRangeAux, if_pos (by norm_num : (1 : ℚ) ≤ 2), dadd_1_1]
  rw [decRangeAux, if_pos (by norm_num : (2 : ℚ) ≤ 2), dadd_2_1]
  rw [decRangeAux, if_neg (by norm_num : ¬(3 : ℚ) ≤ 2)]

/-- The discount loop of `cfgW` runs over `[0, 1]`. -/
theorem decRange_0_1_1 : decRange 0 1 1 = [0, 1] := by
  unfold decRange
  rw [show (⌊((1 : ℚ) - 0) / 1⌋ + 2).toNat = 3 by norm_num; rfl]
  rw [decRangeAux, if_pos (by norm_num : (0 : ℚ) ≤ 1), dadd_0_1]
  rw [decRangeAux, if_pos (by norm_num : (1 : ℚ) ≤ 1), dadd_1_1]
  rw [decRangeAux, if_neg (by norm_num : ¬(2 : ℚ) ≤ 1)]

/-- The exact unit price solved for quantity 1, discount 0 on `cfgW`. -/
theorem reqPriceW0 : calculateRequiredUnitPrice cfgW.targetPpn 1 0 = 100 := by
  show calculateRequiredUnitPrice 11 1 0 = 100
  unfold calculateRequiredUnitPrice
  rw [ddiv_11_rate, dadd_100_0, ddiv_100_1]

/-- The exact unit price solved for quantity 1, discount 1 on `cfgW`. -/
theorem reqPriceW1 : calculateRequiredUnitPrice cfgW.targetPpn 1 1 = 101 := by
  show calculateRequiredUnitPrice 11 1 1 = 101
  unfold calculateRequiredUnitPrice
  rw [ddiv_11_rate, dadd_100_1, ddiv_101_1]

theorem droundInt_100 : droundInt (100 : ℚ) = 100 := by
  have := @droundInt_eval 100 (100 : ℚ) (by norm_num) (by norm_num) (by norm_num)
  simpa using this

theorem droundInt_101 : droundInt (101 : ℚ) = 101 := by
  have := @droundInt_eval 101 (101 : ℚ) (by norm_num) (by norm_num) (by norm_num)
  simpa using this

theorem roundToStep_100_1 : roundToStep (100 : ℚ) 1 = 100 := by
  unfold roundToStep
  rw [ddiv_100_1, droundInt_100, dmul_100_1]

theorem roundToStep_101_1 : roundToStep (101 : ℚ) 1 = 101 := by
  unfold roundToStep
  rw [ddiv_101_1, droundInt_101, dmul_101_1]

theorem candidateList_100_1 : candidateList (100 : ℚ) 1 = [100] := by
  unfold candidateList
  rw [if_pos roundToStep_100_1]

theorem candidateList_101_1 : candidateList (101 : ℚ) 1 = [101] := by
  unfold candidateList
  rw [if_pos roundToStep_101_1]

/-- The staged formula is exact on the two-significant-digit base `100`. -/
theorem ppn_dpp_100 : calculatePpn (calculateDppNilaiLain (100 : ℚ)) = 11 := by
  have h := staged_eq_exact 1 2 (by norm_num) (by norm_num)
  have h100 : ((1 : ℤ) : ℚ) * 10 ^ (2 : ℤ) = 100 := by norm_num
  rw [h100] at h
  rw [h]
  norm_num

theorem ppnW1 : calculateTransactionPpn (⟨100, 1, 0⟩ : Tx) = 11 := by
  unfold calculateTransactionPpn
  have hdpp : calculateDpp (⟨100, 1, 0⟩ : Tx) = 100 := by
    show dsub (dmul 100 1) 0 = 100
    rw [dmul_100_1, dsub_100_0]
  rw [hdpp, ppn_dpp_100]

theorem ppnW2 : calculateTransactionPpn (⟨101, 1, 1⟩ : Tx) = 11 := by
  unfold calculateTransactionPpn
  have hdpp : calculateDpp (⟨101, 1, 1⟩ : Tx) = 100 := by
    show dsub (dmul 101 1) 1 = 100
    rw [dmul_101_1, dsub_101_1]
  rw [hdpp, ppn_dpp_100]

theorem validateTransaction_101 : validateTransaction (⟨101, 1, 1⟩ : Tx) = none := by
  unfold validateTransaction
  simp only
  rw [if_neg (by norm_num), if_neg (by norm_num), if_neg (by norm_num),
    if_neg (by rw [dmul_101_1]; norm_num)]

theorem resW1_diff :
    (createResult ⟨100, 1, 0⟩ 11 ⟨100, 1, 0⟩ 1 1).ppnDifference = 0 := by
  show |dsub (calculateTransactionPpn ⟨100, 1, 0⟩) 11| = 0
  rw [ppnW1, dsub_11_11, abs_zero]

theorem resW2_diff :
    (createResult ⟨101, 1, 1⟩ 11 ⟨100, 1, 0⟩ 1 1).ppnDifference = 0 := by
  show |dsub (calculateTransactionPpn ⟨101, 1, 1⟩) 11| = 0
  rw [ppnW2, dsub_11_11, abs_zero]

/-- `tryCandidate` on a fresh, valid, exactly matching candidate under a
nonnegative tolerance: the result is appended, its key recorded and the
perfect count incremented. -/
theorem tryCandidate_accept {σ : Type} (cfg : Config) (h : Handlers σ) (t : Tx)
    (st : EngineState σ) (key : (ℚ × Bool) × ℚ × (ℚ × Bool))
    (hkey : createTransactionKey t.unitPrice t.quantity t.discount = key)
    (hmem : key ∉ st.seen)
    (hvalid : validateTransaction t = none)
    (hperf : (createResult t cfg.targetPpn cfg.referenceTransaction cfg.alpha
      cfg.beta).ppnDifference = 0)
    (htol : (0 : ℚ) ≤ cfg.tolerance) :
    tryCandidate cfg h t st =
      { results := st.results ++ [createResult t cfg.targetPpn cfg.referenceTransaction
          cfg.alpha cfg.beta]
        seen := key :: st.seen
        count := st.count
        perfectCount := st.perfectCount + 1
        trace := st.trace
        cb := h.onResult (createResult t cfg.targetPpn cfg.referenceTransaction
          cfg.alpha cfg.beta) st.cb } := by
  simp only [tryCandidate]
  rw [hkey, if_neg hmem, if_neg (by simp [hvalid]), if_pos (by rw [hperf]; exact htol),
    if_pos hperf]

/-- `processQtyDiscount` when the candidate list collapses to the single
in-range price `p`: one `tryCandidate` call followed by the trace append. -/
theorem pqd_single {σ : Type} (cfg : Config) (h : Handlers σ) (q d p : ℚ)
    (st : EngineState σ)
    (hp : calculateRequiredUnitPrice cfg.targetPpn q d = p)
    (hc : candidateList p cfg.priceStep = [p])
    (hg : ¬(p < cfg.priceMin ∨ cfg.priceMax < p ∨ p ≤ 0)) :
    processQtyDiscount cfg h q d st =
      { tryCandidate cfg h ⟨p, q, d⟩ st with
        trace := (tryCandidate cfg h ⟨p, q, d⟩ st).trace ++
          [((q, d), (tryCandidate cfg h ⟨p, q, d⟩ st).perfectCount)] } := by
  unfold processQtyDiscount
  rw [hp, hc]
  simp only [List.foldl_cons, List.foldl_nil]
  rw [if_neg hg]

/-- First fallback iteration on `cfgW` (quantity 1, discount 0): the single
exact-price candidate 100 is accepted as a perfect match. -/
theorem processW1 :
    processQtyDiscount cfgW noHandlers 1 0 (initState ()) =
      ⟨[createResult ⟨100, 1, 0⟩ 11 ⟨100, 1, 0⟩ 1 1],
        [((100, false), 1, (0, false))], 0, 1, [((1, 0), 1)], ()⟩ := by
  rw [pqd_single cfgW noHandlers 1 0 100 (initState ()) reqPriceW0 candidateList_100_1
    (by simp only [cfgW]; norm_num)]
  rw [tryCandidate_accept cfgW noHandlers ⟨100, 1, 0⟩ (initState ())
    ((100, false), 1, (0, false)) keyW1
    (fun hc => absurd hc (List.not_mem_nil _)) validateTransaction_refW resW1_diff le_rfl]
  rfl

/-- Second fallback iteration on `cfgW` (quantity 1, discount 1): although
the first iteration already reached `topN = 1` perfect matches, the inner
discount loop runs on and accepts a second perfect match at price 101. -/
theorem processW2 :
    processQtyDiscount cfgW noHandlers 1 1
      (⟨[createResult ⟨100, 1, 0⟩ 11 ⟨100, 1, 0⟩ 1 1],
        [((100, false), 1, (0, false))], 1, 1, [((1, 0), 1)], ()⟩ : EngineState Unit) =
      ⟨[createResult ⟨100, 1, 0⟩ 11 ⟨100, 1, 0⟩ 1 1,
          createResult ⟨101, 1, 1⟩ 11 ⟨100, 1, 0⟩ 1 1],
        [((101, false), 1, (1, false)), ((100, false), 1, (0, false))],
        1, 2, [((1, 0), 1), ((1, 1), 2)], ()⟩ := by
  rw [pqd_single cfgW noHandlers 1 1 101 _ reqPriceW1 candidateList_101_1
    (by simp only [cfgW]; norm_num)]
  rw [tryCandidate_accept cfgW noHandlers ⟨101, 1, 1⟩ _
    ((101, false), 1, (1, false)) keyW2
    (by
      intro hc
      rw [List.mem_singleton] at hc
      have h2 := congrArg (fun p => p.1.1) hc
      norm_num at h2)
    validateTransaction_101 resW2_diff le_rfl]
  rfl

/-- The progress hook is skipped after the first candidate (`count` 1 is
not a multiple of 1000). -/
theorem pidW1 :
    progressIfDue noHandlers (estimateCombinations cfgW)
      (incCount (⟨[createResult ⟨100, 1, 0⟩ 11 ⟨100, 1, 0⟩ 1 1],
        [((100, false), 1, (0, false))], 0, 1, [((1, 0), 1)], ()⟩ : EngineState Unit)) =
      (⟨[createResult ⟨100, 1, 0⟩ 11 ⟨100, 1, 0⟩ 1 1],
        [((100, false), 1, (0, false))], 1, 1, [((1, 0), 1)], ()⟩ : EngineState Unit) := rfl

/-- The progress hook is skipped after the second candidate as well. -/
theorem pidW2 :
    progressIfDue noHandlers (estimateCombinations cfgW)
      (incCount (⟨[createResult ⟨100, 1, 0⟩ 11 ⟨100, 1, 0⟩ 1 1,
          createResult ⟨101, 1, 1⟩ 11 ⟨100, 1, 0⟩ 1 1],
        [((101, false), 1, (1, false)), ((100, false), 1, (0, false))],
        1, 2, [((1, 0), 1), ((1, 1), 2)], ()⟩ : EngineState Unit)) =
      (⟨[createResult ⟨100, 1, 0⟩ 11 ⟨100, 1, 0⟩ 1 1,
          createResult ⟨101, 1, 1⟩ 11 ⟨100, 1, 0⟩ 1 1],
        [((101, false), 1, (1, false)), ((100, false), 1, (0, false))],
        2, 2, [((1, 0), 1), ((1, 1), 2)], ()⟩ : EngineState Unit) := rfl

/-- Unfolding one non-stopping iteration of the fallback strategy's outer
quantity loop. -/
theorem walkFB_go {σ : Type} (cfg : Config) (h : Handlers σ) (est : ℤ) (topN : ℕ)
    (ds : List ℚ) (v : ℚ) (vs : List ℚ) (st : EngineState σ)
    (hgo : ¬topN ≤ st.perfectCount) :
    walkCheckFirst topN
      (fun quantity st =>
        ds.foldl (fun st discount =>
          progressIfDue h est (incCount (processQtyDiscount cfg h quantity discount st))) st)
      (v :: vs) st =
      walkCheckFirst topN
        (fun quantity st =>
          ds.foldl (fun st discount =>
            progressIfDue h est (incCount (processQtyDiscount cfg h quantity discount st))) st)
        vs
        (ds.foldl (fun st discount =>
          progressIfDue h est (incCount (processQtyDiscount cfg h v discount st))) st) := by
  rw [walkCheckFirst, if_neg hgo]

/-- A loop with its check first stops immediately once the perfect-match
count has reached `topN`. -/
theorem walkFB_stop {σ : Type} (topN : ℕ) (step : ℚ → EngineState σ → EngineState σ)
    (v : ℚ) (vs : List ℚ) (st : EngineState σ) (hstop : topN ≤ st.perfectCount) :
    walkCheckFirst topN step (v :: vs) st = st := by
  rw [walkCheckFirst, if_pos hstop]

/-- One inner discount row of the fallback strategy over two discounts. -/
theorem fallbackRow_two {σ : Type} (cfg : Config) (h : Handlers σ) (est : ℤ)
    (q d1 d2 : ℚ) (st : EngineState σ) :
    List.foldl (fun st discount =>
        progressIfDue h est (incCount (processQtyDiscount cfg h q discount st)))
      st [d1, d2] =
      progressIfDue h est (incCount (processQtyDiscount cfg h q d2
        (progressIfDue h est (incCount (processQtyDiscount cfg h q d1 st))))) := by
  simp only [List.foldl_cons, List.foldl_nil]

/-- Branch selection: a configuration with no locked dimension and a small
estimate takes the fallback double loop, whose trace the final progress
callback leaves unchanged. -/
theorem runSimulationState_fallback_trace {σ : Type} (cfg : Config) (h : Handlers σ)
    (s0 : σ) (h1 : ¬(cfg.priceMin = cfg.priceMax ∧ cfg.discountMin = cfg.discountMax))
    (h2 : ¬cfg.priceMin = cfg.priceMax) (h3 : ¬cfg.discountMin = cfg.discountMax)
    (h4 : ¬cfg.quantityMin = cfg.quantityMax)
    (h5 : ¬5000 < estimateCombinations cfg) :
    (runSimulationState cfg h s0).trace =
      (walkCheckFirst cfg.topNResults
        (fun quantity st =>
          (decRange cfg.discountMin cfg.discountMax cfg.discountStep).foldl
            (fun st discount =>
              progressIfDue h (estimateCombinations cfg)
                (incCount (processQtyDiscount cfg h quantity discount st)))
            st)
        (decRange cfg.quantityMin cfg.quantityMax cfg.quantityStep)
        (initState s0)).trace := by
  simp only [runSimulationState]
  rw [if_neg h1, if_neg h2, if_neg h3, if_neg h4, if_neg h5]

/-- The full processing trace of `runSimulation` on `cfgW`: the pair
`(quantity 1, discount 1)` is processed (and even accepted as a second
perfect match) after the pair `(1, 0)` in which the `topN`-th perfect
match was already found. -/
theorem cfgW_trace :
    (runSimulationState cfgW noHandlers ()).trace = [((1, 0), 1), ((1, 1), 2)] := by
  have hq : decRange cfgW.quantityMin cfgW.quantityMax cfgW.quantityStep = [1, 2] :=
    decRange_1_2_1
  have hd : decRange cfgW.discountMin cfgW.discountMax cfgW.discountStep = [0, 1] :=
    decRange_0_1_1
  rw [runSimulationState_fallback_trace cfgW noHandlers ()
    (by simp only [cfgW]; norm_num) (by simp only [cfgW]; norm_num)
    (by simp only [cfgW]; norm_num) (by simp only [cfgW]; norm_num)
    (by rw [cfgW_estimate]; norm_num)]
  rw [hq, hd]
  rw [walkFB_go cfgW noHandlers (estimateCombinations cfgW) cfgW.topNResults [0, 1] 1 [2]
    (initState ()) (by show ¬(1 : ℕ) ≤ 0; norm_num)]
  rw [fallbackRow_two cfgW noHandlers (estimateCombinations cfgW) 1 0 1 (initState ())]
  rw [processW1, pidW1, processW2, pidW2]
  rw [walkFB_stop cfgW.topNResults
    (fun quantity st =>
      List.foldl (fun st discount =>
          progressIfDue noHandlers (estimateCombinations cfgW)
            (incCount (processQtyDiscount cfgW noHandlers quantity discount st)))
        st [0, 1])
    2 []
    (⟨[createResult ⟨100, 1, 0⟩ 11 ⟨100, 1, 0⟩ 1 1,
        createResult ⟨101, 1, 1⟩ 11 ⟨100, 1, 0⟩ 1 1],
      [((101, false), 1, (1, false)), ((100, false), 1, (0, false))],
      2, 2, [((1, 0), 1), ((1, 1), 2)], ()⟩ : EngineState Unit)
    (by show (1 : ℕ) ≤ 2; norm_num)]

/-- C8, counterexample: the validated configuration `cfgW` (`topN = 1`)
selects the small-search-space fallback strategy, whose inner discount
loop has no early-termination check: the processing trace shows the
combination `(quantity 1, discount 1)` being processed — and even counted
as a second perfect match — after the combination `(1, 0)` in which the
`topN`-th exact match was found, refuting the claim that no further
candidate combination is processed in every strategy. -/
theorem c8_counterexample :
    validateConfig cfgW = none ∧ cfgW.topNResults = 1 ∧
      (runSimulationState cfgW noHandlers ()).trace = [((1, 0), 1), ((1, 1), 2)] :=
  ⟨cfgW_validate, rfl, cfgW_trace⟩

theorem c8_early_termination_witness :
    (runSimulationState cfgW noHandlers ()).trace = [((1, 0), 1), ((1, 1), 2)] ∧
      RowStop cfgW.topNResults [(((1 : ℚ), (0 : ℚ)), 1), (((1 : ℚ), (1 : ℚ)), 2)] :=
  ⟨cfgW_trace, by
    have h := (c8_early_termination cfgW noHandlers ()).1
    rwa [cfgW_trace] at h⟩

/-- Forget the callback state of an engine state: the engine itself never
reads it back. -/
def eraseCb {σ : Type} (st : EngineState σ) : EngineState Unit :=
  ⟨st.results, st.seen, st.count, st.perfectCount, st.trace, ()⟩

theorem tryCandidate_eraseCb {σ : Type} (cfg : Config) (h : Handlers σ) (t : Tx)
    (st : EngineState σ) :
    eraseCb (tryCandidate cfg h t st) = tryCandidate cfg noHandlers t (eraseCb st) := by
  simp only [tryCandidate, eraseCb]
  split_ifs <;> rfl

/-- Erasure commutes with a fold as soon as it commutes with each step. -/
theorem foldl_eraseCb {σ α : Type} (f : EngineState σ → α → EngineState σ)
    (g : EngineState Unit → α → EngineState Unit)
    (hfg : ∀ s a, eraseCb (f s a) = g (eraseCb s) a) (l : List α) (s : EngineState σ) :
    eraseCb (l.foldl f s) = l.foldl g (eraseCb s) := by
  induction l generalizing s with
  | nil => rfl
  | cons a as ih => rw [List.foldl_cons, List.foldl_cons, ← hfg, ih]

theorem processQtyDiscount_eraseCb {σ : Type} (cfg : Config) (h : Handlers σ)
    (q d : ℚ) (st : EngineState σ) :
    eraseCb (processQtyDiscount cfg h q d st) =
      processQtyDiscount cfg noHandlers q d (eraseCb st) := by
  have hfold := foldl_eraseCb
    (fun s up => if up < cfg.priceMin ∨ cfg.priceMax < up ∨ up ≤ 0 then s
      else tryCandidate cfg h ⟨up, q, d⟩ s)
    (fun s up => if up < cfg.priceMin ∨ cfg.priceMax < up ∨ up ≤ 0 then s
      else tryCandidate cfg noHandlers ⟨up, q, d⟩ s)
    (by
      intro s a
      dsimp only
      split_ifs
      · rfl
      · exact tryCandidate_eraseCb cfg h _ s)
    (candidateList (calculateRequiredUnitPrice cfg.targetPpn q d) cfg.priceStep) st
  simp only [processQtyDiscount]
  rw [← hfold]
  rfl

theorem processPriceDiscount_eraseCb {σ : Type} (cfg : Config) (h : Handlers σ)
    (up d : ℚ) (st : EngineState σ) :
    eraseCb (processPriceDiscount cfg h up d st) =
      processPriceDiscount cfg noHandlers up d (eraseCb st) := by
  have hfold := foldl_eraseCb
    (fun s q => if q < cfg.quantityMin ∨ cfg.quantityMax < q ∨ q ≤ 0 then s
      else tryCandidate cfg h ⟨up, q, d⟩ s)
    (fun s q => if q < cfg.quantityMin ∨ cfg.quantityMax < q ∨ q ≤ 0 then s
      else tryCandidate cfg noHandlers ⟨up, q, d⟩ s)
    (by
      intro s a
      dsimp only
      split_ifs
      · rfl
      · exact tryCandidate_eraseCb cfg h _ s)
    (candidateList (calculateRequiredQuantity cfg.targetPpn up d) cfg.quantityStep) st
  simp only [processPriceDiscount]
  rw [← hfold]
  rfl

theorem processQtyUnitPrice_eraseCb {σ : Type} (cfg : Config) (h : Handlers σ)
    (q up : ℚ) (st : EngineState σ) :
    eraseCb (processQtyUnitPrice cfg h q up st) =
      processQtyUnitPrice cfg noHandlers q up (eraseCb st) := by
  have hfold := foldl_eraseCb
    (fun s d => if d < cfg.discountMin ∨ cfg.discountMax < d then s
      else tryCandidate cfg h ⟨up, q, d⟩ s)
    (fun s d => if d < cfg.discountMin ∨ cfg.discountMax < d then s
      else tryCandidate cfg noHandlers ⟨up, q, d⟩ s)
    (by
      intro s a
      dsimp only
      split_ifs
      · rfl
      · exact tryCandidate_eraseCb cfg h _ s)
    (candidateList (calculateRequiredDiscount cfg.targetPpn up q) cfg.discountStep) st
  simp only [processQtyUnitPrice]
  rw [← hfold]
  rfl

theorem progressIfDue_eraseCb {σ : Type} (h : Handlers σ) (est : ℤ)
    (st : EngineState σ) :
    eraseCb (progressIfDue h est st) = progressIfDue noHandlers est (eraseCb st) := by
  simp only [progressIfDue, eraseCb]
  split_ifs <;> rfl

theorem walkCheckFirst_eraseCb {σ : Type} (topN : ℕ)
    (step : ℚ → EngineState σ → EngineState σ)
    (step' : ℚ → EngineState Unit → EngineState Unit)
    (hstep : ∀ v s, eraseCb (step v s) = step' v (eraseCb s))
    (l : List ℚ) (st : EngineState σ) :
    eraseCb (walkCheckFirst topN step l st) =
      walkCheckFirst topN step' l (eraseCb st) := by
  induction l generalizing st with
  | nil => rfl
  | cons v vs ih =>
    rw [walkCheckFirst, walkCheckFirst,
      show (eraseCb st).perfectCount = st.perfectCount from rfl]
    split_ifs
    · rfl
    · rw [← hstep v st]
      exact ih (step v st)

theorem walkCheckAfter_eraseCb {σ : Type} (topN : ℕ)
    (step : ℚ × ℚ → EngineState σ → EngineState σ)
    (step' : ℚ × ℚ → EngineState Unit → EngineState Unit)
    (after : EngineState σ → EngineState σ)
    (after' : EngineState Unit → EngineState Unit)
    (hstep : ∀ p s, eraseCb (step p s) = step' p (eraseCb s))
    (hafter : ∀ s, eraseCb (after s) = after' (eraseCb s))
    (l : List (ℚ × ℚ)) (st : EngineState σ) :
    eraseCb (walkCheckAfter topN step after l st) =
      walkCheckAfter topN step' after' l (eraseCb st) := by
  induction l generalizing st with
  | nil => rfl
  | cons p ps ih =>
    rw [walkCheckAfter, walkCheckAfter, ← hstep p st,
      show incCount (eraseCb (step p st)) = eraseCb (incCount (step p st)) from rfl,
      show (eraseCb (incCount (step p st))).perfectCount =
        (incCount (step p st)).perfectCount from rfl]
    split_ifs
    · rfl
    · rw [← hafter (incCount (step p st))]
      exact ih (after (incCount (step p st)))

/-- The whole walk commutes with forgetting the callback state. -/
theorem runSimulationState_eraseCb {σ : Type} (cfg : Config) (h : Handlers σ)
    (s0 : σ) :
    eraseCb (runSimulationState cfg h s0) = runSimulationState cfg noHandlers () := by
  have hinit : (initState () : EngineState Unit) = eraseCb (initState s0) := rfl
  simp only [runSimulationState]
  rw [hinit]
  by_cases hPD : cfg.priceMin = cfg.priceMax ∧ cfg.discountMin = cfg.discountMax
  · rw [if_pos hPD, if_pos hPD, ← processPriceDiscount_eraseCb]
    rfl
  · rw [if_neg hPD, if_neg hPD]
    by_cases hPL : cfg.priceMin = cfg.priceMax
    · rw [if_pos hPL, if_pos hPL,
        ← walkCheckFirst_eraseCb cfg.topNResults
          (fun quantity st => incCount (processQtyUnitPrice cfg h quantity cfg.priceMin st))
          (fun quantity st =>
            incCount (processQtyUnitPrice cfg noHandlers quantity cfg.priceMin st))
          (fun v s => by dsimp only; rw [← processQtyUnitPrice_eraseCb]; rfl)]
      rfl
    · rw [if_neg hPL]
      rw [if_neg hPL]
      by_cases hDL : cfg.discountMin = cfg.discountMax
      · rw [if_pos hDL, if_pos hDL,
          ← walkCheckFirst_eraseCb cfg.topNResults
            (fun quantity st => incCount (processQtyDiscount cfg h quantity cfg.discountMin st))
            (fun quantity st =>
              incCount (processQtyDiscount cfg noHandlers quantity cfg.discountMin st))
            (fun v s => by dsimp only; rw [← processQtyDiscount_eraseCb]; rfl)]
        rfl
      · rw [if_neg hDL, if_neg hDL]
        by_cases hQL : cfg.quantityMin = cfg.quantityMax
        · rw [if_pos hQL, if_pos hQL]
          by_cases hSM : 5000 < estimateCombinations cfg
          · rw [if_pos hSM, if_pos hSM,
              ← walkCheckAfter_eraseCb cfg.topNResults
                (fun p st => processQtyDiscount cfg h p.1 p.2 st)
                (fun p st => processQtyDiscount cfg noHandlers p.1 p.2 st)
                id id
                (fun p s => processQtyDiscount_eraseCb cfg h p.1 p.2 s)
                (fun s => rfl)]
            rfl
          · rw [if_neg hSM, if_neg hSM,
              ← walkCheckFirst_eraseCb cfg.topNResults
                (fun discount st =>
                  incCount (processQtyDiscount cfg h cfg.quantityMin discount st))
                (fun discount st =>
                  incCount (processQtyDiscount cfg noHandlers cfg.quantityMin discount st))
                (fun v s => by dsimp only; rw [← processQtyDiscount_eraseCb]; rfl)]
            rfl
        · rw [if_neg hQL, if_neg hQL]
          by_cases hSM : 5000 < estimateCombinations cfg
          · rw [if_pos hSM, if_pos hSM,
              ← walkCheckAfter_eraseCb cfg.topNResults
                (fun p st => processQtyDiscount cfg h p.1 p.2 st)
                (fun p st => processQtyDiscount cfg noHandlers p.1 p.2 st)
                (progressIfDue h (estimateCombinations cfg))
                (progressIfDue noHandlers (estimateCombinations cfg))
                (fun p s => processQtyDiscount_eraseCb cfg h p.1 p.2 s)
                (fun s => progressIfDue_eraseCb h (estimateCombinations cfg) s)]
            rfl
          · rw [if_neg hSM, if_neg hSM,
              ← walkCheckFirst_eraseCb cfg.topNResults
                (fun quantity st =>
                  (decRange cfg.discountMin cfg.discountMax cfg.discountStep).foldl
                    (fun st discount =>
                      progressIfDue h (estimateCombinations cfg)
                        (incCount (processQtyDiscount cfg h quantity discount st)))
                    st)
                (fun quantity st =>
                  (decRange cfg.discountMin cfg.discountMax cfg.discountStep).foldl
                    (fun st discount =>
                      progressIfDue noHandlers (estimateCombinations cfg)
                        (incCount (processQtyDiscount cfg noHandlers quantity discount st)))
                    st)
                (fun v s => foldl_eraseCb _ _
                  (fun s2 d => by
                    rw [← processQtyDiscount_eraseCb,
                      show incCount (eraseCb (processQtyDiscount cfg h v d s2)) =
                        eraseCb (incCount (processQtyDiscount cfg h v d s2)) from rfl,
                      ← progressIfDue_eraseCb])
                  (decRange cfg.discountMin cfg.discountMax cfg.discountStep) s)]
            rfl

/-- C10: the returned list of `runSimulation` depends only on the
configuration — two calls with structurally equal configurations and
arbitrary, possibly different, progress and streaming callbacks over
arbitrary callback states return identical result lists. -/
theorem c10_deterministic {σ₁ σ₂ : Type} (cfg₁ cfg₂ : Config) (h₁ : Handlers σ₁)
    (h₂ : Handlers σ₂) (s₁ : σ₁) (s₂ : σ₂) (hcfg : cfg₁ = cfg₂) :
    runSimulation cfg₁ h₁ s₁ = runSimulation cfg₂ h₂ s₂ := by
  subst hcfg
  have e1 : (runSimulationState cfg₁ h₁ s₁).results =
      (runSimulationState cfg₁ noHandlers ()).results := by
    rw [← runSimulationState_eraseCb cfg₁ h₁ s₁]
    rfl
  have e2 : (runSimulationState cfg₁ h₂ s₂).results =
      (runSimulationState cfg₁ noHandlers ()).results := by
    rw [← runSimulationState_eraseCb cfg₁ h₂ s₂]
    rfl
  unfold runSimulation
  rw [e1, e2]

theorem c10_deterministic_witness :
    runSimulation cfgW ⟨fun _ s => s + 1, fun _ s => s + 1⟩ (0 : ℕ) =
      runSimulation cfgW noHandlers () :=
  c10_deterministic cfgW cfgW ⟨fun _ s => s + 1, fun _ s => s + 1⟩ noHandlers 0 () rfl

/-- The raw merge key of `handleSimulate` — the template string
`unitPrice|quantity|discount` over the serialized values (serialization
of the exact decimals is modelled as exact). -/
def mergeKey (r : SimResult) : ℚ × ℚ × ℚ :=
  (r.transaction.unitPrice, r.transaction.quantity, r.transaction.discount)

/-- The raw keys of a result list in first-occurrence order — the
iteration order of the JavaScript `Map` built by the merge. -/
def firstKeys : List SimResult → List (ℚ × ℚ × ℚ)
  | [] => []
  | r :: rs => mergeKey r :: (firstKeys rs).filter (fun k => decide (k ≠ mergeKey r))

/-- `Array.from(new Map(l.map(r => [key, r])).values())`: one entry per
distinct raw key, in first-occurrence key order, each holding the last
listed result with that key. -/
def mapDedup (l : List SimResult) : List SimResult :=
  (firstKeys l).filterMap (fun k => (l.filter (fun r => mergeKey r = k)).getLast?)

/-- The merge comparator of `handleSimulate` as a total preorder:
`coordLe a b` holds when the comparator does not place `b` strictly
before `a` — perfect matches (zero difference) first, then score
ascending. -/
def coordLe (a b : SimResult) : Bool :=
  if a.ppnDifference = 0 ∧ ¬b.ppnDifference = 0 then true
  else if ¬a.ppnDifference = 0 ∧ b.ppnDifference = 0 then false
  else decide (a.score ≤ b.score)

/-- The coordinator's merge once all workers have finished
(`handleSimulate`): flatten the shard lists in shard order, dedup through
a JavaScript `Map` keyed by the raw triple, sort with the stable ES2019
`Array.prototype.sort` under the perfect-first/score comparator, and
truncate to `topN`. -/
def mergeShardResults (topN : ℕ) (shards : List (List SimResult)) : List SimResult :=
  ((mapDedup shards.flatten).mergeSort coordLe).take topN

theorem coordLe_total (a b : SimResult) : (coordLe a b || coordLe b a) = true := by
  by_cases hA : a.ppnDifference = 0 <;> by_cases hB : b.ppnDifference = 0 <;>
    simp [coordLe, hA, hB]
  all_goals exact le_total a.score b.score

theorem coordLe_trans (a b c : SimResult) (h1 : coordLe a b = true)
    (h2 : coordLe b c = true) : coordLe a c = true := by
  unfold coordLe at h1 h2 ⊢
  by_cases hA : a.ppnDifference = 0 <;> by_cases hB : b.ppnDifference = 0 <;>
    by_cases hC : c.ppnDifference = 0
  · rw [if_neg (by simp [hB]), if_neg (by simp [hA]), decide_eq_true_eq] at h1
    rw [if_neg (by simp [hC]), if_neg (by simp [hB]), decide_eq_true_eq] at h2
    rw [if_neg (by simp [hC]), if_neg (by simp [hA]), decide_eq_true_eq]
    exact le_trans h1 h2
  · rw [if_pos ⟨hA, hC⟩]
  · rw [if_neg (by simp [hB]), if_pos ⟨hB, hC⟩] at h2
    cases h2
  · rw [if_pos ⟨hA, hC⟩]
  · rw [if_neg (by simp [hA]), if_pos ⟨hA, hB⟩] at h1
    cases h1
  · rw [if_neg (by simp [hA]), if_pos ⟨hA, hB⟩] at h1
    cases h1
  · rw [if_neg (by simp [hB]), if_pos ⟨hB, hC⟩] at h2
    cases h2
  · rw [if_neg (by simp [hA]), if_neg (by simp [hB]), decide_eq_true_eq] at h1
    rw [if_neg (by simp [hB]), if_neg (by simp [hC]), decide_eq_true_eq] at h2
    rw [if_neg (by simp [hA]), if_neg (by simp [hC]), decide_eq_true_eq]
    exact le_trans h1 h2

/-- One comparator step implies the two ordering clauses of the claim. -/
theorem coordLe_imp {a b : SimResult} (h : coordLe a b = true) :
    (b.ppnDifference = 0 → a.ppnDifference = 0) ∧
      ((a.ppnDifference = 0 ↔ b.ppnDifference = 0) → a.score ≤ b.score) := by
  unfold coordLe at h
  by_cases hA : a.ppnDifference = 0 <;> by_cases hB : b.ppnDifference = 0
  · rw [if_neg (by simp [hB]), if_neg (by simp [hA]), decide_eq_true_eq] at h
    exact ⟨fun _ => hA, fun _ => h⟩
  · exact ⟨fun hb => absurd hb hB, fun hiff => absurd (hiff.mp hA) hB⟩
  · rw [if_neg (by simp [hA]), if_pos ⟨hA, hB⟩] at h
    cases h
  · rw [if_neg (by simp [hA]), if_neg (by simp [hB]), decide_eq_true_eq] at h
    exact ⟨fun hb => absurd hb hB, fun _ => h⟩

/-- C4: in the merged list the coordinator returns after all shards
complete, every zero-difference result precedes every non-zero-difference
result; within each group scores are non-decreasing; the sort is stable —
any two results ordered by the comparator in the deduplicated discovery
order stay in that relative order after sorting — and the list is
truncated to at most `topN` entries after this ordering. -/
theorem c4_merge_ordering (topN : ℕ) (shards : List (List SimResult)) :
    (mergeShardResults topN shards).length ≤ topN ∧
      (mergeShardResults topN shards).Pairwise (fun a b =>
        (b.ppnDifference = 0 → a.ppnDifference = 0) ∧
          ((a.ppnDifference = 0 ↔ b.ppnDifference = 0) → a.score ≤ b.score)) ∧
      ∀ a b : SimResult, List.Sublist [a, b] (mapDedup shards.flatten) →
        coordLe a b = true →
        List.Sublist [a, b] ((mapDedup shards.flatten).mergeSort coordLe) := by
  refine ⟨List.length_take_le _ _, ?_, ?_⟩
  · have hs := List.sorted_mergeSort coordLe_trans coordLe_total (mapDedup shards.flatten)
    exact List.Pairwise.imp (fun h => coordLe_imp h)
      (List.Pairwise.sublist (List.take_sublist _ _) hs)
  · intro a b hsub hle
    exact List.pair_sublist_mergeSort coordLe_trans coordLe_total hle hsub

/-- The canonical (dedup) key of a result, exactly the engine's seen-set
key: unit price and discount as printed by `toFixed(2)`, quantity exact. -/
def canonicalKey (r : SimResult) : (ℚ × Bool) × ℚ × (ℚ × Bool) :=
  createTransactionKey r.transaction.unitPrice r.transaction.quantity
    r.transaction.discount

theorem firstKeys_nodup : ∀ l : List SimResult, (firstKeys l).Nodup
  | [] => List.Pairwise.nil
  | r :: rs => by
    rw [firstKeys]
    refine List.nodup_cons.mpr ⟨fun hmem => ?_, List.Nodup.filter _ (firstKeys_nodup rs)⟩
    have h2 := (List.mem_filter.mp hmem).2
    simp at h2

/-- Mapping a key extractor over a `filterMap` whose values carry their
keys yields a sublist of the key list. -/
theorem filterMap_map_sublist {α β : Type} (g : β → Option α) (f : α → β)
    (hg : ∀ k r, g k = some r → f r = k) :
    ∀ ks : List β, List.Sublist ((ks.filterMap g).map f) ks
  | [] => List.Sublist.slnil
  | k :: ks => by
    rw [List.filterMap_cons]
    cases hgk : g k with
    | none => exact List.Sublist.cons k (filterMap_map_sublist g f hg ks)
    | some r =>
      rw [List.map_cons, hg k r hgk]
      exact List.Sublist.cons₂ k (filterMap_map_sublist g f hg ks)

/-- The deduplicated merge list has pairwise-distinct raw keys. -/
theorem mapDedup_keys_nodup (l : List SimResult) :
    ((mapDedup l).map mergeKey).Nodup := by
  refine List.Nodup.sublist (filterMap_map_sublist _ mergeKey ?_ (firstKeys l))
    (firstKeys_nodup l)
  intro k r hg
  have hr := List.mem_of_getLast?_eq_some hg
  have hpred := (List.mem_filter.mp hr).2
  exact of_decide_eq_true hpred

/-- Every entry of the deduplicated merge list is one of the original
results. -/
theorem mapDedup_subset (l : List SimResult) : ∀ r ∈ mapDedup l, r ∈ l := by
  intro r hr
  unfold mapDedup at hr
  rw [List.mem_filterMap] at hr
  obtain ⟨k, _, hk⟩ := hr
  exact (List.mem_filter.mp (List.mem_of_getLast?_eq_some hk)).1

/-- The within-shard dedup invariant: every collected result's canonical
key has been recorded in the seen-set, and no two collected results share
one. -/
def KeysOk {σ : Type} (st : EngineState σ) : Prop :=
  (∀ r ∈ st.results, canonicalKey r ∈ st.seen) ∧
    (st.results.map canonicalKey).Nodup

theorem tryCandidate_keysOk {σ : Type} (cfg : Config) (h : Handlers σ) (t : Tx)
    (st : EngineState σ) (hok : KeysOk st) : KeysOk (tryCandidate cfg h t st) := by
  simp only [tryCandidate]
  split_ifs with hmem hvalid htol
  · exact hok
  · exact ⟨fun r hr => List.mem_cons_of_mem _ (hok.1 r hr), hok.2⟩
  all_goals try exact ⟨fun r hr => List.mem_cons_of_mem _ (hok.1 r hr), hok.2⟩
  all_goals
    refine ⟨?_, ?_⟩
    · intro r hr
      rcases List.mem_append.mp hr with hm | hm
      · exact List.mem_cons_of_mem _ (hok.1 r hm)
      · rw [List.mem_singleton] at hm
        subst hm
        exact List.mem_cons_self _ _
    · rw [List.map_append]
      refine List.Nodup.append hok.2 (List.nodup_singleton _) ?_
      intro k hk1 hk2
      rw [List.map_singleton, List.mem_singleton] at hk2
      subst hk2
      rw [List.mem_map] at hk1
      obtain ⟨r0, hr0, hkey⟩ := hk1
      have h3 := hok.1 r0 hr0
      rw [hkey] at h3
      exact hmem h3

theorem processQtyDiscount_keysOk {σ : Type} (cfg : Config) (h : Handlers σ)
    (q d : ℚ) (st : EngineState σ) (hok : KeysOk st) :
    KeysOk (processQtyDiscount cfg h q d st) := by
  unfold processQtyDiscount
  have key := foldl_preserve (fun st : EngineState σ => KeysOk st)
    (fun st up => if up < cfg.priceMin ∨ cfg.priceMax < up ∨ up ≤ 0 then st
      else tryCandidate cfg h ⟨up, q, d⟩ st)
    (fun st v hst => by
      dsimp only
      split_ifs
      · exact hst
      · exact tryCandidate_keysOk cfg h _ st hst)
    (candidateList (calculateRequiredUnitPrice cfg.targetPpn q d) cfg.priceStep) st hok
  exact key

theorem processPriceDiscount_keysOk {σ : Type} (cfg : Config) (h : Handlers σ)
    (up d : ℚ) (st : EngineState σ) (hok : KeysOk st) :
    KeysOk (processPriceDiscount cfg h up d st) := by
  unfold processPriceDiscount
  have key := foldl_preserve (fun st : EngineState σ => KeysOk st)
    (fun st q => if q < cfg.quantityMin ∨ cfg.quantityMax < q ∨ q ≤ 0 then st
      else tryCandidate cfg h ⟨up, q, d⟩ st)
    (fun st v hst => by
      dsimp only
      split_ifs
      · exact hst
      · exact tryCandidate_keysOk cfg h _ st hst)
    (candidateList (calculateRequiredQuantity cfg.targetPpn up d) cfg.quantityStep) st hok
  exact key

theorem processQtyUnitPrice_keysOk {σ : Type} (cfg : Config) (h : Handlers σ)
    (q up : ℚ) (st : EngineState σ) (hok : KeysOk st) :
    KeysOk (processQtyUnitPrice cfg h q up st) := by
  unfold processQtyUnitPrice
  have key := foldl_preserve (fun st : EngineState σ => KeysOk st)
    (fun st d => if d < cfg.discountMin ∨ cfg.discountMax < d then st
      else tryCandidate cfg h ⟨up, q, d⟩ st)
    (fun st v hst => by
      dsimp only
      split_ifs
      · exact hst
      · exact tryCandidate_keysOk cfg h _ st hst)
    (candidateList (calculateRequiredDiscount cfg.targetPpn up q) cfg.discountStep) st hok
  exact key

/-- The seen-set mechanism guarantees within-shard canonical-key
uniqueness of the collected results. -/
theorem runSimulationState_keysOk {σ : Type} (cfg : Config) (h : Handlers σ)
    (s0 : σ) : KeysOk (runSimulationState cfg h s0) := by
  apply runSimulationState_preserve (fun st : EngineState σ => KeysOk st)
  · exact ⟨fun r hr => absurd hr (List.not_mem_nil r), List.Pairwise.nil⟩
  · exact fun up d st hst => processPriceDiscount_keysOk cfg h up d st hst
  · exact fun q d st hst => processQtyDiscount_keysOk cfg h q d st hst
  · exact fun q up st hst => processQtyUnitPrice_keysOk cfg h q up st hst
  · exact fun st hst => hst
  · intro est st hst
    unfold progressIfDue
    split
    · exact hst
    · exact hst
  · exact fun st s' hst => hst

/-- The canonical keys of one worker's returned list are pairwise
distinct. -/
theorem runSimulation_keysNodup {σ : Type} (cfg : Config) (h : Handlers σ)
    (s0 : σ) : ((runSimulation cfg h s0).map canonicalKey).Nodup := by
  have hstate := (runSimulationState_keysOk cfg h s0).2
  have hperm : List.Perm (sortResults (runSimulationState cfg h s0).results)
      (runSimulationState cfg h s0).results := List.mergeSort_perm _ _
  have h1 : ((sortResults (runSimulationState cfg h s0).results).map canonicalKey).Nodup :=
    (List.Perm.nodup_iff (List.Perm.map canonicalKey hperm)).mpr hstate
  have h2 : (runSimulation cfg h s0).map canonicalKey =
      ((sortResults (runSimulationState cfg h s0).results).map canonicalKey).take
        cfg.topNResults := by
    rw [runSimulation, List.map_take]
  rw [h2]
  exact List.Nodup.sublist (List.take_sublist _ _) h1

/-- Quantity bounds of collected results. -/
def QtyInRange (cfg : Config) (l : List SimResult) : Prop :=
  ∀ r ∈ l, cfg.quantityMin ≤ r.transaction.quantity ∧
    r.transaction.quantity ≤ cfg.quantityMax

theorem tryCandidate_qty {σ : Type} (cfg : Config) (h : Handlers σ) (t : Tx)
    (st : EngineState σ)
    (ht : cfg.quantityMin ≤ t.quantity ∧ t.quantity ≤ cfg.quantityMax)
    (hok : QtyInRange cfg st.results) :
    QtyInRange cfg (tryCandidate cfg h t st).results := by
  simp only [tryCandidate]
  split_ifs
  all_goals try exact hok
  all_goals
    intro r hr
    rcases List.mem_append.mp hr with hm | hm
    · exact hok r hm
    · rw [List.mem_singleton] at hm
      subst hm
      exact ht

theorem processQtyDiscount_qty {σ : Type} (cfg : Config) (h : Handlers σ)
    (q d : ℚ) (st : EngineState σ)
    (hq : cfg.quantityMin ≤ q ∧ q ≤ cfg.quantityMax)
    (hok : QtyInRange cfg st.results) :
    QtyInRange cfg (processQtyDiscount cfg h q d st).results := by
  unfold processQtyDiscount
  apply foldl_preserve (fun st : EngineState σ => QtyInRange cfg st.results)
  · intro st v hst
    split
    · exact hst
    · exact tryCandidate_qty cfg h _ st hq hst
  · exact hok

theorem processQtyUnitPrice_qty {σ : Type} (cfg : Config) (h : Handlers σ)
    (q up : ℚ) (st : EngineState σ)
    (hq : cfg.quantityMin ≤ q ∧ q ≤ cfg.quantityMax)
    (hok : QtyInRange cfg st.results) :
    QtyInRange cfg (processQtyUnitPrice cfg h q up st).results := by
  unfold processQtyUnitPrice
  apply foldl_preserve (fun st : EngineState σ => QtyInRange cfg st.results)
  · intro st v hst
    split
    · exact hst
    · exact tryCandidate_qty cfg h _ st hq hst
  · exact hok

theorem processPriceDiscount_qty {σ : Type} (cfg : Config) (h : Handlers σ)
    (up d : ℚ) (st : EngineState σ) (hok : QtyInRange cfg st.results) :
    QtyInRange cfg (processPriceDiscount cfg h up d st).results := by
  unfold processPriceDiscount
  apply foldl_preserve (fun st : EngineState σ => QtyInRange cfg st.results)
  · intro st q hst
    split_ifs with hguard
    · exact hst
    · push_neg at hguard
      exact tryCandidate_qty cfg h _ st ⟨hguard.1, hguard.2.1⟩ hst
  · exact hok

/-- Every value the range loop emits satisfies the loop guard, so is at
most the upper bound. -/
theorem decRangeAux_le (hi step : ℚ) : ∀ (lo : ℚ) (fuel : ℕ),
    ∀ v ∈ decRangeAux hi step lo fuel, v ≤ hi
  | _, 0 => by
    intro v hv
    cases hv
  | lo, fuel + 1 => by
    intro v hv
    rw [decRangeAux] at hv
    split_ifs at hv with hle
    · rcases List.mem_cons.mp hv with rfl | hmem
      · exact hle
      · exact decRangeAux_le hi step _ fuel v hmem
    · cases hv

theorem decRange_le (lo hi step : ℚ) : ∀ v ∈ decRange lo hi step, v ≤ hi :=
  decRangeAux_le hi step lo _

/-- The quantity component of every priority pair is a quantity-range
value. -/
theorem generatePriorityOrder_fst_mem (refQty qmin qmax qstep dmin dmax dstep : ℚ) :
    ∀ p ∈ generatePriorityOrder refQty qmin qmax qstep dmin dmax dstep,
      p.1 ∈ decRange qmin qmax qstep := by
  intro p hp
  unfold generatePriorityOrder at hp
  rw [List.mem_flatMap] at hp
  obtain ⟨q, hq, hpd⟩ := hp
  rw [List.mem_map] at hpd
  obtain ⟨d, _, rfl⟩ := hpd
  unfold sortByDistance at hq
  split_ifs at hq
  · exact hq
  · exact List.mem_mergeSort.mp hq

theorem walkCheckFirst_preserve_mem {σ : Type} (P : EngineState σ → Prop) (topN : ℕ)
    (step : ℚ → EngineState σ → EngineState σ) :
    ∀ (l : List ℚ), (∀ v ∈ l, ∀ st, P st → P (step v st)) →
      ∀ st : EngineState σ, P st → P (walkCheckFirst topN step l st)
  | [], _, _, hst => hst
  | v :: vs, hstep, st, hst => by
    rw [walkCheckFirst]
    split
    · exact hst
    · exact walkCheckFirst_preserve_mem P topN step vs
        (fun u hu => hstep u (List.mem_cons_of_mem v hu)) _
        (hstep v (List.mem_cons_self v vs) st hst)

theorem walkCheckAfter_preserve_mem {σ : Type} (P : EngineState σ → Prop) (topN : ℕ)
    (step : ℚ × ℚ → EngineState σ → EngineState σ)
    (after : EngineState σ → EngineState σ)
    (hafter : ∀ st, P st → P (after st)) :
    ∀ (l : List (ℚ × ℚ)), (∀ p ∈ l, ∀ st, P st → P (incCount (step p st))) →
      ∀ st : EngineState σ, P st → P (walkCheckAfter topN step after l st)
  | [], _, _, hst => hst
  | p :: ps, hstep, st, hst => by
    rw [walkCheckAfter]
    split
    · exact hstep p (List.mem_cons_self p ps) st hst
    · exact walkCheckAfter_preserve_mem P topN step after hafter ps
        (fun u hu => hstep u (List.mem_cons_of_mem p hu)) _
        (hafter _ (hstep p (List.mem_cons_self p ps) st hst))

/-- Every collected result's quantity lies in the configured quantity
interval.  `hlo` assumes the quantity loop never steps below its start:
the loop guard itself only enforces the upper bound, and the rounded
increment is not provably monotone for every configuration. -/
theorem runSimulationState_qty {σ : Type} (cfg : Config) (h : Handlers σ) (s0 : σ)
    (hqm : cfg.quantityMin ≤ cfg.quantityMax)
    (hlo : ∀ v ∈ decRange cfg.quantityMin cfg.quantityMax cfg.quantityStep,
      cfg.quantityMin ≤ v) :
    QtyInRange cfg (runSimulationState cfg h s0).results := by
  have hhi := decRange_le cfg.quantityMin cfg.quantityMax cfg.quantityStep
  have hpair : ∀ p ∈ generatePriorityOrder cfg.referenceTransaction.quantity
      cfg.quantityMin cfg.quantityMax cfg.quantityStep cfg.discountMin cfg.discountMax
      cfg.discountStep, cfg.quantityMin ≤ p.1 ∧ p.1 ≤ cfg.quantityMax := by
    intro p hp
    have hmem := generatePriorityOrder_fst_mem _ _ _ _ _ _ _ p hp
    exact ⟨hlo _ hmem, hhi _ hmem⟩
  have hinit : QtyInRange cfg (initState s0 : EngineState σ).results :=
    fun r hr => absurd hr (List.not_mem_nil r)
  have hprog : ∀ (est : ℤ) (st : EngineState σ), QtyInRange cfg st.results →
      QtyInRange cfg (progressIfDue h est st).results := by
    intro est st hst
    unfold progressIfDue
    split <;> exact hst
  simp only [runSimulationState]
  by_cases hPD : cfg.priceMin = cfg.priceMax ∧ cfg.discountMin = cfg.discountMax
  · rw [if_pos hPD]
    exact processPriceDiscount_qty cfg h _ _ _ hinit
  · rw [if_neg hPD]
    by_cases hPL : cfg.priceMin = cfg.priceMax
    · rw [if_pos hPL]
      exact walkCheckFirst_preserve_mem
        (fun st : EngineState σ => QtyInRange cfg st.results) cfg.topNResults
        (fun quantity st => incCount (processQtyUnitPrice cfg h quantity cfg.priceMin st))
        (decRange cfg.quantityMin cfg.quantityMax cfg.quantityStep)
        (fun v hv st hst =>
          processQtyUnitPrice_qty cfg h v cfg.priceMin st ⟨hlo v hv, hhi v hv⟩ hst)
        (initState s0) hinit
    · rw [if_neg hPL]
      by_cases hDL : cfg.discountMin = cfg.discountMax
      · rw [if_pos hDL]
        exact walkCheckFirst_preserve_mem
          (fun st : EngineState σ => QtyInRange cfg st.results) cfg.topNResults
          (fun quantity st => incCount (processQtyDiscount cfg h quantity cfg.discountMin st))
          (decRange cfg.quantityMin cfg.quantityMax cfg.quantityStep)
          (fun v hv st hst =>
            processQtyDiscount_qty cfg h v cfg.discountMin st ⟨hlo v hv, hhi v hv⟩ hst)
          (initState s0) hinit
      · rw [if_neg hDL]
        by_cases hQL : cfg.quantityMin = cfg.quantityMax
        · rw [if_pos hQL]
          by_cases hSM : 5000 < estimateCombinations cfg
          · rw [if_pos hSM]
            exact walkCheckAfter_preserve_mem
              (fun st : EngineState σ => QtyInRange cfg st.results) cfg.topNResults
              (fun p st => processQtyDiscount cfg h p.1 p.2 st)
              id (fun st hst => hst)
              (generatePriorityOrder cfg.referenceTransaction.quantity cfg.quantityMin
                cfg.quantityMax cfg.quantityStep cfg.discountMin cfg.discountMax
                cfg.discountStep)
              (fun p hp st hst =>
                processQtyDiscount_qty cfg h p.1 p.2 st (hpair p hp) hst)
              (initState s0) hinit
          · rw [if_neg hSM]
            exact walkCheckFirst_preserve_mem
              (fun st : EngineState σ => QtyInRange cfg st.results) cfg.topNResults
              (fun discount st =>
                incCount (processQtyDiscount cfg h cfg.quantityMin discount st))
              (decRange cfg.discountMin cfg.discountMax cfg.discountStep)
              (fun v _ st hst =>
                processQtyDiscount_qty cfg h cfg.quantityMin v st ⟨le_rfl, hqm⟩ hst)
              (initState s0) hinit
        · rw [if_neg hQL]
          by_cases hSM : 5000 < estimateCombinations cfg
          · rw [if_pos hSM]
            exact walkCheckAfter_preserve_mem
              (fun st : EngineState σ => QtyInRange cfg st.results) cfg.topNResults
              (fun p st => processQtyDiscount cfg h p.1 p.2 st)
              (progressIfDue h (estimateCombinations cfg))
              (fun st hst => hprog _ st hst)
              (generatePriorityOrder cfg.referenceTransaction.quantity cfg.quantityMin
                cfg.quantityMax cfg.quantityStep cfg.discountMin cfg.discountMax
                cfg.discountStep)
              (fun p hp st hst =>
                processQtyDiscount_qty cfg h p.1 p.2 st (hpair p hp) hst)
              (initState s0) hinit
          · rw [if_neg hSM]
            exact walkCheckFirst_preserve_mem
              (fun st : EngineState σ => QtyInRange cfg st.results) cfg.topNResults
              (fun quantity st =>
                (decRange cfg.discountMin cfg.discountMax cfg.discountStep).foldl
                  (fun st discount =>
                    progressIfDue h (estimateCombinations cfg)
                      (incCount (processQtyDiscount cfg h quantity discount st)))
                  st)
              (decRange cfg.quantityMin cfg.quantityMax cfg.quantityStep)
              (fun v hv st hst =>
                foldl_preserve (fun st : EngineState σ => QtyInRange cfg st.results)
                  (fun st discount =>
                    progressIfDue h (estimateCombinations cfg)
                      (incCount (processQtyDiscount cfg h v discount st)))
                  (fun st d hst =>
                    hprog _ _ (processQtyDiscount_qty cfg h v d st ⟨hlo v hv, hhi v hv⟩ hst))
                  (decRange cfg.discountMin cfg.discountMax cfg.discountStep) st hst)
              (initState s0) hinit

/-- Quantity bounds carry over to the worker's returned list. -/
theorem runSimulation_qty {σ : Type} (cfg : Config) (h : Handlers σ) (s0 : σ)
    (hqm : cfg.quantityMin ≤ cfg.quantityMax)
    (hlo : ∀ v ∈ decRange cfg.quantityMin cfg.quantityMax cfg.quantityStep,
      cfg.quantityMin ≤ v) :
    ∀ r ∈ runSimulation cfg h s0, cfg.quantityMin ≤ r.transaction.quantity ∧
      r.transaction.quantity ≤ cfg.quantityMax := by
  intro r hr
  have hr1 := List.mem_of_mem_take hr
  have hr2 : r ∈ (runSimulationState cfg h s0).results := by
    simpa [sortResults] using hr1
  exact runSimulationState_qty cfg h s0 hqm hlo r hr2

/-- `sliceSize = Math.max(1, Math.floor((quantityMax − quantityMin) / n))`
of `handleSimulate` (the JavaScript float arithmetic is modelled as
exact). -/
def sliceSize (base : Config) (n : ℕ) : ℤ :=
  max 1 ⌊(base.quantityMax - base.quantityMin) / (n : ℚ)⌋

/-- The configuration `handleSimulate` posts to worker `i` of `n`: the
base configuration with the quantity range replaced by the worker's
slice `[qmin + i*s, qmin + (i+1)*s − 1]` (the last worker instead keeps
the base upper bound, and the upper bound is clamped from below by the
slice start). -/
def workerConfig (base : Config) (n i : ℕ) : Config :=
  { base with
    quantityMin := base.quantityMin + (i : ℚ) * ((sliceSize base n : ℤ) : ℚ)
    quantityMax := max (base.quantityMin + (i : ℚ) * ((sliceSize base n : ℤ) : ℚ))
      (if i = n - 1 then base.quantityMax
       else base.quantityMin + (i : ℚ) * ((sliceSize base n : ℤ) : ℚ) +
         ((sliceSize base n : ℤ) : ℚ) - 1) }

theorem workerConfig_lo_le_hi (base : Config) (n i : ℕ) :
    (workerConfig base n i).quantityMin ≤ (workerConfig base n i).quantityMax :=
  le_max_left _ _

/-- The quantity slices of two distinct workers are disjoint intervals:
the earlier worker's upper bound lies strictly below the later worker's
lower bound. -/
theorem workerConfig_disjoint (base : Config) (n i j : ℕ) (hij : i < j) (hjn : j < n) :
    (workerConfig base n i).quantityMax < (workerConfig base n j).quantityMin := by
  have hin : ¬i = n - 1 := by omega
  have hs : (1 : ℤ) ≤ sliceSize base n := le_max_left _ _
  have hsq : (1 : ℚ) ≤ ((sliceSize base n : ℤ) : ℚ) := by exact_mod_cast hs
  have hij' : (i : ℚ) + 1 ≤ (j : ℚ) := by exact_mod_cast hij
  show max (base.quantityMin + (i : ℚ) * ((sliceSize base n : ℤ) : ℚ))
      (if i = n - 1 then base.quantityMax
       else base.quantityMin + (i : ℚ) * ((sliceSize base n : ℤ) : ℚ) +
         ((sliceSize base n : ℤ) : ℚ) - 1) <
    base.quantityMin + (j : ℚ) * ((sliceSize base n : ℤ) : ℚ)
  rw [if_neg hin]
  rw [max_eq_right (by linarith)]
  have hmul : ((i : ℚ) + 1) * ((sliceSize base n : ℤ) : ℚ) ≤
      (j : ℚ) * ((sliceSize base n : ℤ) : ℚ) := by
    apply mul_le_mul_of_nonneg_right hij'
    linarith
  nlinarith

/-- C5: no two results in the list the coordinator returns after merging
all shards share a canonical key (unit price and discount at two printed
decimals, quantity exact).  Within one shard the engine's seen-set is the
mechanism; across shards the coordinator's quantity slices are disjoint
and the canonical key contains the exact quantity.  `hlo` assumes each
shard's quantity loop never steps below its start (the loop guard only
enforces the upper bound). -/
theorem c5_canonical_key_dedup {σ : Type} (base : Config) (n : ℕ) (topN : ℕ)
    (h : Handlers σ) (s0 : σ)
    (hlo : ∀ i < n, ∀ v ∈ decRange (workerConfig base n i).quantityMin
      (workerConfig base n i).quantityMax (workerConfig base n i).quantityStep,
      (workerConfig base n i).quantityMin ≤ v) :
    ((mergeShardResults topN ((List.range n).map (fun i =>
      runSimulation (workerConfig base n i) h s0))).map canonicalKey).Nodup := by
  set L := ((List.range n).map fun i =>
    runSimulation (workerConfig base n i) h s0).flatten with hL
  have hshard : ∀ r ∈ L, ∃ i, i < n ∧ r ∈ runSimulation (workerConfig base n i) h s0 := by
    intro r hr
    rw [hL, List.mem_flatten] at hr
    obtain ⟨l, hl, hrl⟩ := hr
    rw [List.mem_map] at hl
    obtain ⟨i, hi, rfl⟩ := hl
    exact ⟨i, List.mem_range.mp hi, hrl⟩
  have hqty : ∀ i, i < n → ∀ r ∈ runSimulation (workerConfig base n i) h s0,
      (workerConfig base n i).quantityMin ≤ r.transaction.quantity ∧
        r.transaction.quantity ≤ (workerConfig base n i).quantityMax := by
    intro i hi
    exact runSimulation_qty _ h s0 (workerConfig_lo_le_hi base n i) (hlo i hi)
  have hcross : ∀ a ∈ L, ∀ b ∈ L, canonicalKey a = canonicalKey b → a = b := by
    intro a ha b hb hkey
    obtain ⟨i, hi, hai⟩ := hshard a ha
    obtain ⟨j, hj, hbj⟩ := hshard b hb
    have hq : a.transaction.quantity = b.transaction.quantity :=
      congrArg (fun k => k.2.1) hkey
    rcases Nat.lt_trichotomy i j with hij | hij | hij
    · have h1 := (hqty i hi a hai).2
      have h2 := (hqty j hj b hbj).1
      have := workerConfig_disjoint base n i j hij hj
      rw [hq] at h1
      linarith
    · subst hij
      have hnd := runSimulation_keysNodup (workerConfig base n i) h s0
      exact List.inj_on_of_nodup_map hnd hai hbj hkey
    · have h1 := (hqty j hj b hbj).2
      have h2 := (hqty i hi a hai).1
      have := workerConfig_disjoint base n j i hij hi
      rw [hq] at h2
      linarith
  have hdedupNodup : (mapDedup L).Nodup :=
    List.Nodup.of_map mergeKey (mapDedup_keys_nodup L)
  have hsortNodup : ((mapDedup L).mergeSort coordLe).Nodup :=
    (List.Perm.nodup_iff (List.mergeSort_perm (mapDedup L) coordLe)).mpr hdedupNodup
  have htakeNodup : (mergeShardResults topN ((List.range n).map (fun i =>
      runSimulation (workerConfig base n i) h s0))).Nodup :=
    List.Nodup.sublist (List.take_sublist _ _) hsortNodup
  refine List.Nodup.map_on ?_ htakeNodup
  intro x hx y hy hxy
  have hx1 : x ∈ mapDedup L :=
    List.mem_mergeSort.mp (List.mem_of_mem_take hx)
  have hy1 : y ∈ mapDedup L :=
    List.mem_mergeSort.mp (List.mem_of_mem_take hy)
  exact hcross x (mapDedup_subset L x hx1) y (mapDedup_subset L y hy1) hxy

theorem sliceSizeW : sliceSize cfgW 2 = 1 := by
  unfold sliceSize
  show max 1 ⌊(((2 : ℚ) - 1) / ((2 : ℕ) : ℚ))⌋ = 1
  rw [show ((2 : ℚ) - 1) / ((2 : ℕ) : ℚ) = 1 / 2 by norm_num]
  rw [show (⌊(1 / 2 : ℚ)⌋ : ℤ) = 0 from Int.floor_eq_iff.mpr (by norm_num)]
  norm_num

theorem workerConfigW0 :
    workerConfig cfgW 2 0 = { cfgW with quantityMin := 1, quantityMax := 1 } := by
  unfold workerConfig
  rw [sliceSizeW, if_neg (by norm_num : ¬(0 = 2 - 1))]
  have h1 : cfgW.quantityMin + ((0 : ℕ) : ℚ) * ((1 : ℤ) : ℚ) = 1 := by
    show (1 : ℚ) + ((0 : ℕ) : ℚ) * ((1 : ℤ) : ℚ) = 1
    norm_num
  rw [h1]
  have h2 : max (1 : ℚ) (1 + ((1 : ℤ) : ℚ) - 1) = 1 := by norm_num
  rw [h2]

theorem workerConfigW1 :
    workerConfig cfgW 2 1 = { cfgW with quantityMin := 2, quantityMax := 2 } := by
  unfold workerConfig
  rw [sliceSizeW, if_pos (by norm_num : (1 : ℕ) = 2 - 1)]
  have h1 : cfgW.quantityMin + ((1 : ℕ) : ℚ) * ((1 : ℤ) : ℚ) = 2 := by
    show (1 : ℚ) + ((1 : ℕ) : ℚ) * ((1 : ℤ) : ℚ) = 2
    norm_num
  rw [h1]
  have h2 : max (2 : ℚ) cfgW.quantityMax = 2 := by
    show max (2 : ℚ) 2 = 2
    norm_num
  rw [h2]

theorem decRange_1_1_1 : decRange 1 1 1 = [1] := by
  unfold decRange
  rw [show (⌊((1 : ℚ) - 1) / 1⌋ + 2).toNat = 2 by norm_num; rfl]
  rw [decRangeAux, if_pos (by norm_num : (1 : ℚ) ≤ 1), dadd_1_1]
  rw [decRangeAux, if_neg (by norm_num : ¬(2 : ℚ) ≤ 1)]

theorem decRange_2_2_1 : decRange 2 2 1 = [2] := by
  unfold decRange
  rw [show (⌊((2 : ℚ) - 2) / 1⌋ + 2).toNat = 2 by norm_num; rfl]
  rw [decRangeAux, if_pos (by norm_num : (2 : ℚ) ≤ 2), dadd_2_1]
  rw [decRangeAux, if_neg (by norm_num : ¬(3 : ℚ) ≤ 2)]

theorem c5_canonical_key_dedup_witness :
    ((mergeShardResults 1 ((List.range 2).map (fun i =>
      runSimulation (workerConfig cfgW 2 i) noHandlers ()))).map canonicalKey).Nodup := by
  apply c5_canonical_key_dedup
  intro i hi v hv
  have hcase : i = 0 ∨ i = 1 := by omega
  rcases hcase with rfl | rfl
  · rw [workerConfigW0] at hv ⊢
    have hv' : v ∈ decRange 1 1 1 := hv
    rw [decRange_1_1_1, List.mem_singleton] at hv'
    subst hv'
    exact le_rfl
  · rw [workerConfigW1] at hv ⊢
    have hv' : v ∈ decRange 2 2 1 := hv
    rw [decRange_2_2_1, List.mem_singleton] at hv'
    subst hv'
    exact le_rfl

/-- Messages the main thread posts to a simulator worker
(`worker-types`/`simulator.worker.ts`). -/
inductive WorkerIn
  | start (cfg : Config)
  | cancel

/-- Messages the worker posts back (`WorkerResponse`); elapsed times and
the serialized `humanScore` decoration are omitted from the model. -/
inductive WorkerOut
  | progress (p : ℚ) (estimate : ℤ)
  | partialResult (results : List SimResult)
  | result (results : List SimResult)
  | error (e : ConfigError)
deriving DecidableEq

/-- The worker's streaming batch size. -/
def BATCH_SIZE : ℕ := 50

/-- The worker's `runSimulation` callbacks over the state
`(posted messages, current partial-result batch)`: `onProgress` posts a
progress message (the cancellation check inside it cannot fire, because
`isCancelled` was reset when the `start` handler began and no other
handler can run until it returns); `onResult` pushes into the batch and
flushes every `BATCH_SIZE` results. -/
def workerHandlers (estimate : ℤ) : Handlers (List WorkerOut × List SimResult) :=
  ⟨fun p s => (s.1 ++ [.progress p estimate], s.2),
   fun r s =>
     if BATCH_SIZE ≤ (s.2 ++ [r]).length then (s.1 ++ [.partialResult (s.2 ++ [r])], [])
     else (s.1, s.2 ++ [r])⟩

/-- Handling one `start` request (`simulator.worker.ts`): validate — on
error post only the error message — otherwise run the simulation with the
streaming callbacks, flush the last partial batch, re-sort the returned
list by score and post it as the final `result`. -/
def processStart (cfg : Config) : List WorkerOut :=
  match validateConfig cfg with
  | some e => [.error e]
  | none =>
    let st := runSimulationState cfg (workerHandlers (estimateCombinations cfg)) ([], [])
    (if st.cb.2 = [] then st.cb.1 else st.cb.1 ++ [.partialResult st.cb.2]) ++
      [.result (sortResults ((sortResults st.results).take cfg.topNResults))]

/-- One step of the worker's message loop over the state
`(isCancelled, posted messages)`.  A JavaScript worker is single-threaded
and runs each handler to completion: a `start` request resets the flag
and runs the whole simulation before any queued message is handled. -/
def workerStep (s : Bool × List WorkerOut) : WorkerIn → Bool × List WorkerOut
  | .cancel => (true, s.2)
  | .start cfg => (false, s.2 ++ processStart cfg)

/-- The worker's behaviour on a queue of messages. -/
def runWorker (msgs : List WorkerIn) : Bool × List WorkerOut :=
  msgs.foldl workerStep (false, [])

/-- Any `start` request with a valid configuration followed immediately
by a `cancel` still ends with a final `result` message posted for that
request. -/
theorem runWorker_start_cancel (cfg : Config) (hv : validateConfig cfg = none) :
    ∃ out ∈ (runWorker [WorkerIn.start cfg, WorkerIn.cancel]).2,
      ∃ rs, out = WorkerOut.result rs := by
  simp only [runWorker, List.foldl_cons, List.foldl_nil, workerStep]
  simp only [processStart, hv]
  refine ⟨WorkerOut.result (sortResults ((sortResults
    (runSimulationState cfg (workerHandlers (estimateCombinations cfg))
      ([], [])).results).take cfg.topNResults)), ?_, _, rfl⟩
  simp

/-- C9: a `start` request with a valid configuration followed immediately
by a `cancel` — before any `result` was received — still ends with a
final `result` message posted for that request: the synchronous `start`
handler resets `isCancelled`, runs the whole walk (the cancellation check
inside `onProgress` can never observe the queued `cancel`) and posts the
result before the `cancel` handler runs, contradicting the specified
scenario in which no `result` is ever emitted. -/
theorem c9_cancel_still_emits_result :
    ∃ out ∈ (runWorker [WorkerIn.start cfgW, WorkerIn.cancel]).2,
      ∃ rs, out = WorkerOut.result rs :=
  runWorker_start_cancel cfgW cfgW_validate

/-- The degenerate configuration of the C2 counterexample: `cfgW` with a
zero price step. -/
def cfgP : Config := { cfgW with priceStep := 0 }

theorem cfgP_validate : validateConfig cfgP = none := by
  unfold validateConfig
  rw [show cfgP.referenceTransaction = (⟨100, 1, 0⟩ : Tx) from rfl, validateTransaction_refW]
  rw [if_neg (by simp only [cfgP, cfgW]; norm_num), if_neg (by simp only [cfgP, cfgW]; norm_num),
    if_neg (by simp only [cfgP, cfgW]; norm_num), if_neg (by simp only [cfgP, cfgW]; norm_num),
    if_neg (by simp only [cfgP, cfgW]; norm_num),
    if_neg (by rw [show estimateCombinations cfgP = 4 from cfgW_estimate]; norm_num)]

/-- C2, counterexample: a configuration whose price step is `0` — so the
claim's disjunction (any of the three step sizes ≤ 0) holds and it
demands a validation error — that `validateConfig` nevertheless accepts:
only the quantity step is validated. -/
theorem c2_counterexample : validateConfig cfgP = none ∧ cfgP.priceStep ≤ 0 :=
  ⟨cfgP_validate, le_rfl⟩

/-- C2 (amended): `validateConfig` rejects exactly when the reference
transaction is invalid, the target is non-positive, the tolerance is
negative, the quantity bounds are bad, the QUANTITY step alone is
non-positive, or the estimated combination count exceeds `10^9` — the
price and discount steps are never validated.  The too-large error
carries the offending estimate, and on any validation error the worker
posts only that error message and never starts the search.  (With a zero
discount step the source's estimate is an IEEE `Infinity`; the rational
model's division is total, so that boundary lies outside the first
conjunct's faithfulness.) -/
theorem c2_validate_iff (c : Config) :
    ((validateConfig c).isSome ↔
      (¬validateTransaction c.referenceTransaction = none ∨ c.targetPpn ≤ 0 ∨
        c.tolerance < 0 ∨ c.quantityMin ≤ 0 ∨ c.quantityMax < c.quantityMin ∨
        c.quantityStep ≤ 0 ∨ 1000000000 < estimateCombinations c)) ∧
      (∀ est, validateConfig c = some (ConfigError.searchSpaceTooLarge est) →
        est = estimateCombinations c) ∧
      (∀ e, validateConfig c = some e → processStart c = [WorkerOut.error e]) := by
  refine ⟨?_, ?_, ?_⟩
  · unfold validateConfig
    cases hv : validateTransaction c.referenceTransaction with
    | some e => simp [hv]
    | none =>
      simp only
      split_ifs with h1 h2 h3 h4 h5 h6 <;> simp_all
  · intro est hsome
    unfold validateConfig at hsome
    cases hv : validateTransaction c.referenceTransaction with
    | some e =>
      rw [hv] at hsome
      simp at hsome
    | none =>
      rw [hv] at hsome
      split_ifs at hsome <;> simp at hsome
      exact hsome.symm
  · intro e hsome
    unfold processStart
    rw [hsome]

end Demivio
